import Mathlib

/-!
Verification of the easy-fs / rCore-style kernel core.

Shallow embedding conventions:
* The block device is a function `Disk := Nat → Nat → Nat`
  (block id → index inside the block → stored value).  Data blocks are read
  byte-wise (index `0..512`), bitmap blocks word-wise (index `0..64`,
  values are `u64` represented as `Nat < 2^64`) and indirect blocks
  entry-wise (index `0..128`, `u32` entries).
* Rust `panic!` / failed `assert!` / `unwrap` are modelled by `Option`
  results (`none` = panic).
* `while` loops that run a number of iterations known up front are written
  as structural recursion on that iteration count; the one loop whose
  count is not syntactically evident (`DiskInode::increase_size`'s
  indirect2 loop) takes an explicit fuel parameter that the caller sets
  large enough.
-/

/-- Size of a disk block in bytes (`BLOCK_SZ`). -/
def BLOCK_SZ : Nat := 512

/-- Max number of direct block references in a disk inode (`INODE_DIRECT_COUNT`). -/
def INODE_DIRECT_COUNT : Nat := 28

/-- Entries of one indirect block (`INODE_INDIRECT1_COUNT = BLOCK_SZ / 4`). -/
def INODE_INDIRECT1_COUNT : Nat := BLOCK_SZ / 4

/-- Data blocks reachable through the double indirect block (`INODE_INDIRECT2_COUNT`). -/
def INODE_INDIRECT2_COUNT : Nat := INODE_INDIRECT1_COUNT * INODE_INDIRECT1_COUNT

/-- `DIRECT_BOUND`. -/
def DIRECT_BOUND : Nat := INODE_DIRECT_COUNT

/-- `INDIRECT1_BOUND = DIRECT_BOUND + INODE_INDIRECT1_COUNT`. -/
def INDIRECT1_BOUND : Nat := DIRECT_BOUND + INODE_INDIRECT1_COUNT

/-- Size of an on-disk directory entry in bytes (`DIRENT_SZ`). -/
def DIRENT_SZ : Nat := 32

/-- The block device: block id → index in block → stored value. -/
abbrev Disk := Nat → Nat → Nat

/-- Write value `v` at index `i` of block `b` (a `modify` through the block cache). -/
def diskWrite (disk : Disk) (b i v : Nat) : Disk :=
  Function.update disk b (Function.update (disk b) i v)

/-- `DiskInodeType`. -/
inductive DiskInodeType where
  | File
  | Directory
deriving DecidableEq

/-- The on-disk inode record `DiskInode` (its `direct` array is modelled as a
function; only indices `< 28` are meaningful). -/
structure DInode where
  size : Nat
  direct : Nat → Nat
  indirect1 : Nat
  indirect2 : Nat
  ty : DiskInodeType

/-- `DiskInode::initialize`. -/
def DInode.initialize (ty : DiskInodeType) : DInode :=
  { size := 0, direct := fun _ => 0, indirect1 := 0, indirect2 := 0, ty := ty }

/-- `DiskInode::_data_blocks`: `(size + BLOCK_SZ - 1) / BLOCK_SZ`. -/
def dataBlocks (size : Nat) : Nat := (size + BLOCK_SZ - 1) / BLOCK_SZ

/-- `DiskInode::total_blocks`: data blocks plus the indirect metadata blocks
(one for indirect1 past `DIRECT_BOUND`, and past `INDIRECT1_BOUND` one for
indirect2 plus its `⌈(data − 156)/128⌉` indirect1 children). -/
def total_blocks (size : Nat) : Nat :=
  if dataBlocks size > INDIRECT1_BOUND then
    (if dataBlocks size > DIRECT_BOUND then dataBlocks size + 1 else dataBlocks size) + 1 +
      (dataBlocks size - INDIRECT1_BOUND + INODE_INDIRECT1_COUNT - 1) / INODE_INDIRECT1_COUNT
  else if dataBlocks size > DIRECT_BOUND then dataBlocks size + 1 else dataBlocks size

/-- `DiskInode::blocks_num_needed` (callers establish `new_size ≥ size`). -/
def blocks_num_needed (ino : DInode) (new_size : Nat) : Nat :=
  total_blocks new_size - total_blocks ino.size

/-- `DiskInode::get_block_id`: translate an in-file block index to a device
block id through the direct / indirect1 / indirect2 tiers. -/
def get_block_id (ino : DInode) (disk : Disk) (inner_id : Nat) : Nat :=
  if inner_id < DIRECT_BOUND then ino.direct inner_id
  else if inner_id < INDIRECT1_BOUND then disk ino.indirect1 (inner_id - INODE_DIRECT_COUNT)
  else
    let last := inner_id - INDIRECT1_BOUND
    disk (disk ino.indirect2 (last / INODE_INDIRECT1_COUNT)) (last % INODE_INDIRECT1_COUNT)

/-- Byte of the file at position `p`, as `read_at`/`write_at` address it:
block `getBid (p / BLOCK_SZ)`, offset `p % BLOCK_SZ`. -/
def fileByte (getBid : Nat → Nat) (disk : Disk) (p : Nat) : Nat :=
  disk (getBid (p / BLOCK_SZ)) (p % BLOCK_SZ)

/-- The block-by-block loop of `DiskInode::read_at`, reading positions
`[start, e)`; `getBid` is `self.get_block_id ·` of the inode. Each
iteration reads the in-block slice
`data_block[start % BLOCK_SZ .. start % BLOCK_SZ + block_read_size]`. -/
def readAtLoop (getBid : Nat → Nat) (disk : Disk) (start e : Nat) : List Nat :=
  if h : start < e then
    if min ((start / BLOCK_SZ + 1) * BLOCK_SZ) e = e then
      (List.range (min ((start / BLOCK_SZ + 1) * BLOCK_SZ) e - start)).map
        fun i => disk (getBid (start / BLOCK_SZ)) (start % BLOCK_SZ + i)
    else
      ((List.range (min ((start / BLOCK_SZ + 1) * BLOCK_SZ) e - start)).map
        fun i => disk (getBid (start / BLOCK_SZ)) (start % BLOCK_SZ + i)) ++
        readAtLoop getBid disk (min ((start / BLOCK_SZ + 1) * BLOCK_SZ) e) e
  else []
termination_by e - start
decreasing_by
  have h1 : start < start / BLOCK_SZ * BLOCK_SZ + BLOCK_SZ :=
    Nat.lt_div_mul_add (by norm_num [BLOCK_SZ])
  simp only [BLOCK_SZ] at h1 ⊢
  omega

/-- `DiskInode::read_at`: returns the number of bytes read together with the
bytes copied into the caller's buffer (its first component is the sum of the
per-block `block_read_size`s, i.e. the length of the second). -/
def DiskInode.read_at (size : Nat) (getBid : Nat → Nat) (disk : Disk) (offset bufLen : Nat) :
    Nat × List Nat :=
  if offset ≥ min (offset + bufLen) size then (0, [])
  else
    ((readAtLoop getBid disk offset (min (offset + bufLen) size)).length,
      readAtLoop getBid disk offset (min (offset + bufLen) size))

/-- The block-by-block loop of `DiskInode::write_at`, writing `buf` to
positions `[start, e)`; `ws` is the running `write_size`. -/
def writeAtLoop (getBid : Nat → Nat) (disk : Disk) (start e : Nat) (buf : List Nat)
    (ws : Nat) : Disk :=
  if h : start < e then
    if min ((start / BLOCK_SZ + 1) * BLOCK_SZ) e = e then
      fun b i =>
        if b = getBid (start / BLOCK_SZ) ∧ start % BLOCK_SZ ≤ i ∧
            i < start % BLOCK_SZ + (min ((start / BLOCK_SZ + 1) * BLOCK_SZ) e - start) then
          buf.getD (ws + (i - start % BLOCK_SZ)) 0
        else disk b i
    else
      writeAtLoop getBid
        (fun b i =>
          if b = getBid (start / BLOCK_SZ) ∧ start % BLOCK_SZ ≤ i ∧
              i < start % BLOCK_SZ + (min ((start / BLOCK_SZ + 1) * BLOCK_SZ) e - start) then
            buf.getD (ws + (i - start % BLOCK_SZ)) 0
          else disk b i)
        (min ((start / BLOCK_SZ + 1) * BLOCK_SZ) e) e buf
        (ws + (min ((start / BLOCK_SZ + 1) * BLOCK_SZ) e - start))
  else disk
termination_by e - start
decreasing_by
  have h1 : start < start / BLOCK_SZ * BLOCK_SZ + BLOCK_SZ :=
    Nat.lt_div_mul_add (by norm_num [BLOCK_SZ])
  simp only [BLOCK_SZ] at h1 ⊢
  omega

/-- `DiskInode::write_at`: size must have been adjusted beforehand; asserts
`start ≤ end`.  Returns the bytes written and the updated device. -/
def DiskInode.write_at (size : Nat) (getBid : Nat → Nat) (disk : Disk) (offset : Nat)
    (buf : List Nat) : Option (Nat × Disk) :=
  if offset ≤ min (offset + buf.length) size then
    some (min (offset + buf.length) size - offset,
      writeAtLoop getBid disk offset (min (offset + buf.length) size) buf 0)
  else none

/-! ### `DiskInode::increase_size` -/

/-- One filling `while` loop: write the next `n` iterator values into
`f[curr], f[curr+1], …` (`n` is the iteration count `stop - curr` of the
source loop); `none` models `iter_new.next().unwrap()` on an exhausted
iterator. -/
def fillRange (f : Nat → Nat) (curr : Nat) : Nat → List Nat → Option ((Nat → Nat) × List Nat)
  | 0, iter => some (f, iter)
  | _ + 1, [] => none
  | n + 1, b :: rest => fillRange (Function.update f curr b) (curr + 1) n rest

/-- The indirect2-filling loop of `DiskInode::increase_size`.  The first
argument is fuel bounding the number of iterations; every reachable call
site passes at least `new`, which suffices because each iteration advances
`curr` by `e ≥ 1` there. -/
def fillIndirect2 : Nat → Disk → Nat → Nat → Nat → Nat → Nat → List Nat → Option (Disk × List Nat)
  | 0, disk, _, curr, new, _, _, iter => if curr < new then none else some (disk, iter)
  | fuel + 1, disk, ind2, curr, new, a1, b1, iter =>
    if curr < new then
      let a0 := curr / INODE_INDIRECT1_COUNT
      let b0 := curr % INODE_INDIRECT1_COUNT
      let step : Option (Disk × List Nat) :=
        if b0 = 0 then
          match iter with
          | [] => none
          | b :: rest => some (diskWrite disk ind2 a0 b, rest)
        else some (disk, iter)
      match step with
      | none => none
      | some (disk1, iter1) =>
        let e := if a0 < a1 then INODE_INDIRECT1_COUNT else b1
        match fillRange (disk1 (disk1 ind2 a0)) 0 e iter1 with
        | none => none
        | some (blk, iter2) =>
          fillIndirect2 fuel (Function.update disk1 (disk1 ind2 a0) blk) ind2 (curr + e) new a1 b1 iter2
    else some (disk, iter)

/-- `iter_new.next().unwrap()` (`none` = panic on an exhausted iterator). -/
def iterNext : List Nat → Option (Nat × List Nat)
  | [] => none
  | b :: rest => some (b, rest)

/-- `DiskInode::increase_size`: grow to `new_size` consuming `new_blocks`.
`none` models a panic (failed `assert!`/`assert_eq!` or iterator `unwrap`).
Running counters are written out in full: after the direct phase
`curr_total = max (dataBlocks size) (min 28 (dataBlocks new_size))`, after
re-positioning it drops by `INODE_DIRECT_COUNT` (and later by
`INODE_INDIRECT1_COUNT`), exactly as the source mutates `curr_total`. -/
def DInode.increase_size (ino : DInode) (new_size : Nat) (new_blocks : List Nat)
    (disk : Disk) : Option (DInode × Disk) :=
  if ¬ new_size > ino.size then none
  else if ¬ new_blocks.length ≥ blocks_num_needed ino new_size then none
  else
    (fillRange ino.direct (dataBlocks ino.size)
        (min INODE_DIRECT_COUNT (dataBlocks new_size) - dataBlocks ino.size) new_blocks).bind
      fun s1 =>
      if dataBlocks new_size > INODE_DIRECT_COUNT then
        if max (dataBlocks ino.size) (min INODE_DIRECT_COUNT (dataBlocks new_size)) ≠
            INODE_DIRECT_COUNT then none
        else
          (iterNext s1.2).bind fun s2 =>
            (fillRange (disk s2.1)
                (max (dataBlocks ino.size) (min INODE_DIRECT_COUNT (dataBlocks new_size)) -
                  INODE_DIRECT_COUNT)
                (min INODE_INDIRECT1_COUNT (dataBlocks new_size - INODE_DIRECT_COUNT) -
                  (max (dataBlocks ino.size) (min INODE_DIRECT_COUNT (dataBlocks new_size)) -
                    INODE_DIRECT_COUNT)) s2.2).bind
              fun s3 =>
              if dataBlocks new_size - INODE_DIRECT_COUNT > INODE_INDIRECT1_COUNT then
                if max (max (dataBlocks ino.size) (min INODE_DIRECT_COUNT (dataBlocks new_size)) -
                      INODE_DIRECT_COUNT)
                    (min INODE_INDIRECT1_COUNT (dataBlocks new_size - INODE_DIRECT_COUNT)) ≠
                    INODE_INDIRECT1_COUNT then none
                else
                  (iterNext s3.2).bind fun s4 =>
                    (fillIndirect2
                        (dataBlocks new_size - INODE_DIRECT_COUNT - INODE_INDIRECT1_COUNT)
                        (Function.update disk s2.1 s3.1) s4.1
                        (max (max (dataBlocks ino.size)
                              (min INODE_DIRECT_COUNT (dataBlocks new_size)) -
                            INODE_DIRECT_COUNT)
                          (min INODE_INDIRECT1_COUNT
                            (dataBlocks new_size - INODE_DIRECT_COUNT)) -
                          INODE_INDIRECT1_COUNT)
                        (dataBlocks new_size - INODE_DIRECT_COUNT - INODE_INDIRECT1_COUNT)
                        ((dataBlocks new_size - INODE_DIRECT_COUNT - INODE_INDIRECT1_COUNT) /
                          INODE_INDIRECT1_COUNT)
                        ((dataBlocks new_size - INODE_DIRECT_COUNT - INODE_INDIRECT1_COUNT) %
                          INODE_INDIRECT1_COUNT) s4.2).bind
                      fun s5 =>
                      some (⟨new_size, s1.1, s2.1, s4.1, ino.ty⟩, s5.1)
              else
                some (⟨new_size, s1.1, s2.1, ino.indirect2, ino.ty⟩,
                  Function.update disk s2.1 s3.1)
      else some (⟨new_size, s1.1, ino.indirect1, ino.indirect2, ino.ty⟩, disk)

/-! ### `DiskInode::clear_size` -/

/-- The direct-block loop of `clear_size`: push `direct[curr..curr+n)` and
zero each slot. -/
def clearDirectLoop (direct : Nat → Nat) (curr : Nat) : Nat → List Nat × (Nat → Nat)
  | 0 => ([], direct)
  | n + 1 =>
    let b := direct curr
    let r := clearDirectLoop (Function.update direct curr 0) (curr + 1) n
    (b :: r.1, r.2)

/-- Collect `blk[curr..curr+n)` (the entry-pushing loops of `clear_size`). -/
def collectRange (blk : Nat → Nat) (curr : Nat) : Nat → List Nat
  | 0 => []
  | n + 1 => blk curr :: collectRange blk (curr + 1) n

/-- The full-indirect1 loop of the indirect2 phase of `clear_size`: for each
of `n` entries of the indirect2 block starting at index `k`, push the
indirect1 block id followed by all of its 128 entries. -/
def clearInd2Full (disk : Disk) (ind2blk : Nat → Nat) (k : Nat) : Nat → List Nat
  | 0 => []
  | n + 1 =>
    ind2blk k :: (collectRange (disk (ind2blk k)) 0 INODE_INDIRECT1_COUNT
      ++ clearInd2Full disk ind2blk (k + 1) n)

/-- `DiskInode::clear_size`: set size to 0, zero the reachability metadata
and return every owned block id in traversal order.  The device is only read
(the `modify` closures on this path push ids without storing).  `none`
models the failed `assert!(data_blocks <= INODE_INDIRECT2_COUNT)`.  The
running `data_blocks` counter of the source is written out as
`dataBlocks size`, `dataBlocks size - INODE_DIRECT_COUNT` and
`dataBlocks size - INODE_DIRECT_COUNT - INODE_INDIRECT1_COUNT` after its two
decrements. -/
def clear_size (ino : DInode) (disk : Disk) : Option (List Nat × DInode) :=
  if dataBlocks ino.size > INODE_DIRECT_COUNT then
    if dataBlocks ino.size - INODE_DIRECT_COUNT > INODE_INDIRECT1_COUNT then
      if dataBlocks ino.size - INODE_DIRECT_COUNT - INODE_INDIRECT1_COUNT ≤
          INODE_INDIRECT2_COUNT then
        some
          ((clearDirectLoop ino.direct 0 (min (dataBlocks ino.size) INODE_DIRECT_COUNT)).1 ++
            (ino.indirect1 :: collectRange (disk ino.indirect1) 0
              (min (dataBlocks ino.size - INODE_DIRECT_COUNT) INODE_INDIRECT1_COUNT)) ++
            (ino.indirect2 ::
              (clearInd2Full disk (disk ino.indirect2) 0
                  (min ((dataBlocks ino.size - INODE_DIRECT_COUNT - INODE_INDIRECT1_COUNT) /
                    INODE_INDIRECT1_COUNT) INODE_INDIRECT1_COUNT) ++
                (if 0 < (dataBlocks ino.size - INODE_DIRECT_COUNT - INODE_INDIRECT1_COUNT) %
                    INODE_INDIRECT1_COUNT then
                  disk ino.indirect2 ((dataBlocks ino.size - INODE_DIRECT_COUNT -
                    INODE_INDIRECT1_COUNT) / INODE_INDIRECT1_COUNT) ::
                    collectRange (disk (disk ino.indirect2 ((dataBlocks ino.size -
                      INODE_DIRECT_COUNT - INODE_INDIRECT1_COUNT) / INODE_INDIRECT1_COUNT))) 0
                      ((dataBlocks ino.size - INODE_DIRECT_COUNT - INODE_INDIRECT1_COUNT) %
                        INODE_INDIRECT1_COUNT)
                else []))),
            ⟨0, (clearDirectLoop ino.direct 0 (min (dataBlocks ino.size) INODE_DIRECT_COUNT)).2,
              0, 0, ino.ty⟩)
      else none
    else
      some
        ((clearDirectLoop ino.direct 0 (min (dataBlocks ino.size) INODE_DIRECT_COUNT)).1 ++
          (ino.indirect1 :: collectRange (disk ino.indirect1) 0
            (min (dataBlocks ino.size - INODE_DIRECT_COUNT) INODE_INDIRECT1_COUNT)),
          ⟨0, (clearDirectLoop ino.direct 0 (min (dataBlocks ino.size) INODE_DIRECT_COUNT)).2,
            0, ino.indirect2, ino.ty⟩)
  else
    some ((clearDirectLoop ino.direct 0 (min (dataBlocks ino.size) INODE_DIRECT_COUNT)).1,
      ⟨0, (clearDirectLoop ino.direct 0 (min (dataBlocks ino.size) INODE_DIRECT_COUNT)).2,
        ino.indirect1, ino.indirect2, ino.ty⟩)

/-! ### `Bitmap` -/

/-- `BLOCK_BITS = BLOCK_SZ * 8`. -/
def BLOCK_BITS : Nat := BLOCK_SZ * 8

/-- `u64::MAX`. -/
def U64MAX : Nat := 2 ^ 64 - 1

/-- `u64::trailing_ones`, as a scan for the first clear bit starting at `i`
with `n` positions left to inspect (64 in total; result 64 when all set). -/
def lowestClearAux (w : Nat) (i : Nat) : Nat → Nat
  | 0 => 64
  | n + 1 => if w.testBit i then lowestClearAux w (i + 1) n else i

/-- `u64::trailing_ones` of a word `< 2^64`. -/
def trailing_ones (w : Nat) : Nat := lowestClearAux w 0 64

/-- `bitmap_block.iter().enumerate().find(|(_, bits64)| **bits64 != u64::MAX)`:
first of `n` word indices starting at `j` whose word is not all ones. -/
def findFreeWordAux (blk : Nat → Nat) (j : Nat) : Nat → Option Nat
  | 0 => none
  | n + 1 => if blk j ≠ U64MAX then some j else findFreeWordAux blk (j + 1) n

/-- `Bitmap { start_block_id, blocks }`. -/
structure Bitmap where
  start_block_id : Nat
  blocks : Nat

/-- The body of one `Bitmap::alloc` iteration on block `blockId`: find the
first not-full word, compute its `trailing_ones`, set that bit (`|=`). -/
def allocInBlock (disk : Disk) (blockId : Nat) : Option (Nat × Nat × Disk) :=
  match findFreeWordAux (disk blockId) 0 64 with
  | none => none
  | some j =>
    let w := disk blockId j
    let inner := trailing_ones w
    some (j, inner, diskWrite disk blockId j (w ||| (1 <<< inner)))

/-- The block loop of `Bitmap::alloc`: scan `n` blocks starting at index
`idx`. -/
def allocLoopAux (start_block_id : Nat) (disk : Disk) (idx : Nat) : Nat → Option (Nat × Disk)
  | 0 => none
  | n + 1 =>
    match allocInBlock disk (idx + start_block_id) with
    | some (j, inner, disk') => some (idx * BLOCK_BITS + j * 64 + inner, disk')
    | none => allocLoopAux start_block_id disk (idx + 1) n

/-- `Bitmap::alloc`. -/
def Bitmap.alloc (bm : Bitmap) (disk : Disk) : Option (Nat × Disk) :=
  allocLoopAux bm.start_block_id disk 0 bm.blocks

/-- `decompsition` (sic): bit position → (block, word, bit-in-word). -/
def decompsition (bit : Nat) : Nat × Nat × Nat :=
  (bit / BLOCK_BITS, bit % BLOCK_BITS / 64, bit % BLOCK_BITS % 64)

/-- `Bitmap::dealloc`: asserts the bit is set (`none` = panic) and clears it
(`&= !(1 << inner)`; the complement of a `u64` is `U64MAX ^^^ ·`). -/
def Bitmap.dealloc (bm : Bitmap) (disk : Disk) (bit : Nat) : Option Disk :=
  let p := decompsition bit
  let w := disk (p.1 + bm.start_block_id) p.2.1
  if w &&& (1 <<< p.2.2) > 0 then
    some (diskWrite disk (p.1 + bm.start_block_id) p.2.1 (w &&& (U64MAX ^^^ (1 <<< p.2.2))))
  else none

/-- Bit `q` of a bitmap (derived view: word `q % BLOCK_BITS / 64` of block
`q / BLOCK_BITS + start_block_id`, bit `q % 64` of the word, LSB first). -/
def bitSet (bm : Bitmap) (disk : Disk) (q : Nat) : Bool :=
  (disk (q / BLOCK_BITS + bm.start_block_id) (q % BLOCK_BITS / 64)).testBit (q % BLOCK_BITS % 64)

/-! ### `EasyFileSystem` data allocation and the vfs `Inode` layer -/

/-- The pieces of `EasyFileSystem` that data allocation uses. -/
structure EfsState where
  data_bitmap : Bitmap
  data_area_start_block : Nat

/-- `EasyFileSystem::alloc_data`: data-area start plus the freshly allocated
bitmap bit (`unwrap` of the bitmap result). -/
def alloc_data (fs : EfsState) (disk : Disk) : Option (Nat × Disk) :=
  (fs.data_bitmap.alloc disk).map fun r => (fs.data_area_start_block + r.1, r.2)

/-- The allocation loop of `Inode::increase_size` (vfs): draw `n` block ids
through `fs.alloc_data()`. -/
def allocN (fs : EfsState) : Nat → Disk → Option (List Nat × Disk)
  | 0, disk => some ([], disk)
  | n + 1, disk =>
    match alloc_data fs disk with
    | none => none
    | some (b, disk1) =>
      match allocN fs n disk1 with
      | none => none
      | some (bs, disk2) => some (b :: bs, disk2)

/-- `Inode::increase_size` (vfs layer): returns immediately when
`new_size ≤ size`, otherwise allocates `blocks_num_needed` data blocks and
calls `DiskInode::increase_size`. -/
def Inode.increase_size (new_size : Nat) (ino : DInode) (fs : EfsState)
    (disk : Disk) : Option (DInode × Disk) :=
  if new_size ≤ ino.size then some (ino, disk)
  else
    match allocN fs (blocks_num_needed ino new_size) disk with
    | none => none
    | some (bs, disk1) => DInode.increase_size ino new_size bs disk1

/-- `Inode::write_at` (vfs layer): asserts the inode is a regular file,
extends the size first, then delegates to the disk-inode writer. -/
def Inode.write_at (ino : DInode) (fs : EfsState) (disk : Disk) (offset : Nat)
    (buf : List Nat) : Option (Nat × DInode × Disk) :=
  if ino.ty = DiskInodeType.File then
    match Inode.increase_size (offset + buf.length) ino fs disk with
    | none => none
    | some (ino1, disk1) =>
      match DiskInode.write_at ino1.size (get_block_id ino1 disk1) disk1 offset buf with
      | none => none
      | some (n, disk2) => some (n, ino1, disk2)
  else none

/-- `Inode::read_at` (vfs layer): delegate to `DiskInode::read_at`. -/
def Inode.read_at (ino : DInode) (disk : Disk) (offset bufLen : Nat) : Nat × List Nat :=
  DiskInode.read_at ino.size (get_block_id ino disk) disk offset bufLen

/-! ### `sys_waitpid` -/

/-- A child `ProcessControlBlock` as `sys_waitpid` observes it. -/
structure ChildProc where
  pid : Nat
  is_zombie : Bool
  exit_code : Int
deriving DecidableEq

/-- The predicate of the `find`:
`pid == -1 || p.getpid() == pid as usize` (the cast is mod `2^64`). -/
def waitpidMatch (pid : Int) (p : ChildProc) : Bool :=
  pid == -1 || (p.pid : Int) == Int.emod pid (2 ^ 64)

/-- `children.iter().enumerate().find(…)`: first matching child with its
index. -/
def findChild (pid : Int) : List ChildProc → Option (Nat × ChildProc)
  | [] => none
  | c :: cs =>
    if waitpidMatch pid c then some (0, c)
    else (findChild pid cs).map fun r => (r.1 + 1, r.2)

/-- `sys_waitpid`: returns the syscall result, the remaining `children`
list, and the exit code written through `exit_code_ptr` (if any). -/
def sys_waitpid (pid : Int) (children : List ChildProc) : Int × List ChildProc × Option Int :=
  match findChild pid children with
  | none => (-1, children, none)
  | some (idx, p) =>
    if ¬ p.is_zombie then (-2, children, none)
    else ((p.pid : Int), children.eraseIdx idx, some p.exit_code)

/-! ### `EasyFileSystem::create` and directory entries -/

/-- The root disk inode exactly as `EasyFileSystem::create` leaves it:
`root_inode.initialize(DiskInodeType::Directory)` on a zeroed device and
nothing else (`initialize_dir` is never invoked on it). -/
def efsCreateRootInode : DInode := DInode.initialize DiskInodeType.Directory

/-- Number of directory entries of a directory inode:
`file_count = size / DIRENT_SZ`. -/
def dirFileCount (ino : DInode) : Nat := ino.size / DIRENT_SZ

/-- The two entries `DiskInode::initialize_dir` writes into a fresh
directory: `.` → the directory's own inode, `..` → the parent's. -/
def initialize_dir_entries (self_inode parent_inode : Nat) : List (String × Nat) :=
  [(".", self_inode), ("..", parent_inode)]

/-- Size `DiskInode::initialize_dir` grows a fresh directory to:
`(file_count + 2) * DIRENT_SZ`. -/
def initialize_dir_size (old_size : Nat) : Nat :=
  (old_size / DIRENT_SZ + 2) * DIRENT_SZ

/-! ### `FileMapping::sync` -/

/-- 4 KiB pages (`PAGE_SIZE`). -/
def PAGE_SIZE : Nat := 0x1000

/-- `VirtAddr::ceil`. -/
def vaCeil (va : Nat) : Nat := (va + PAGE_SIZE - 1) / PAGE_SIZE

/-- `VirtAddr::from(usize)` applies `value & VA_MASK` with
`VA_MASK = (1 << VA_WIDTH_SV39) - 1 = 2^39 - 1`, i.e. truncation mod `2^39`. -/
def vaFrom (v : Nat) : Nat := v % 2 ^ 39

/-- `MapRange { start, end, len, offset }` (with `end = start + len`). -/
structure MapRange where
  start : Nat
  len : Nat
  offset : Nat
deriving DecidableEq

/-- One entry of the `offset → (vpn, ppn)` map of a `FileMapping`. -/
structure FMapEntry where
  offset : Nat
  vpn : Nat
  ppn : Nat
deriving DecidableEq

/-- The `va_len` computed inside `FileMapping::sync` for one map entry:
`ranges.iter().map(…).max()`; `none` models the `unwrap` panic on an empty
`ranges` list. -/
def syncVaLen (ranges : List MapRange) (offset : Nat) : Option Nat :=
  (ranges.map fun r =>
    if r.offset ≤ offset ∧ offset < r.offset + r.len then
      min PAGE_SIZE (r.offset + r.len - offset)
    else 0).max?

/-- `FileMapping::sync`: walk the `offset → (vpn, ppn)` map in order
(a `BTreeMap`, so entries come sorted by offset); `dirty vpn` is
`pt.translate(vpn)`'s D bit (`none` = no pte, an `unwrap` panic).  The
result is the list of `(offset, write_len)` writes performed through
`file.write_at`. -/
def FileMapping.sync (file_size : Nat) (dirty : Nat → Option Bool) (ranges : List MapRange) :
    List FMapEntry → Option (List (Nat × Nat))
  | [] => some []
  | entry :: rest =>
    match dirty entry.vpn with
    | none => none
    | some d =>
      if ¬ d then FileMapping.sync file_size dirty ranges rest
      else if entry.offset ≥ file_size then FileMapping.sync file_size dirty ranges rest
      else
        match syncVaLen ranges entry.offset with
        | none => none
        | some va_len =>
          let write_len := min va_len (file_size - entry.offset)
          match FileMapping.sync file_size dirty ranges rest with
          | none => none
          | some ws => some ((entry.offset, write_len) :: ws)

/-! ### `sys_munmap` -/

/-- Modelled from the spec: the constant `MMAP_AREA_BASE` is imported from
`crate::config` but its definition is not part of the sources; the spec
fixes only that the allocator hands out 4 KiB-aligned windows "starting at a
fixed base".  Any page-aligned base realises that; this one is used for
concrete instances. -/
def MMAP_AREA_BASE : Nat := 0x1000000000

/-- `VirtAddressAllocator { curr_va }`. -/
structure VirtAddressAllocator where
  curr_va : Nat

/-- `VirtAddressAllocator::alloc`: return `curr_va` and bump it to
`end.ceil()` converted back to an address, where
`end = VirtAddr::from(curr_va + len)` truncates the sum to 39 bits. -/
def VirtAddressAllocator.alloc (a : VirtAddressAllocator) (len : Nat) :
    Nat × VirtAddressAllocator :=
  (a.curr_va, ⟨vaCeil (vaFrom (a.curr_va + len)) * PAGE_SIZE⟩)

/-- The `(start, len)` windows returned by a sequence of `alloc` calls
starting from state `va`. -/
def allocSeq (va : Nat) : List Nat → List (Nat × Nat)
  | [] => []
  | len :: rest =>
    let r := VirtAddressAllocator.alloc ⟨va⟩ len
    (r.1, len) :: allocSeq r.2.curr_va rest

/-! ### `ProcessControlBlock::fork` -/

/-- The parts of a `ProcessControlBlock` that the thread-count contract of
`fork` concerns (children are carried by pid). -/
structure PCB where
  pid : Nat
  is_zombie : Bool
  children : List Nat
  exit_code : Int
  tasks : List Nat

/-- `ProcessControlBlockInner::thread_count`: `tasks.len()`. -/
def thread_count (p : PCB) : Nat := p.tasks.length

/-- `ProcessControlBlock::fork`: `assert_eq!(parent_inner.thread_count(), 1)`
(`none` = panic); the child starts with `tasks: Vec::new()`, is pushed onto
the parent's children, and then its single main thread is attached. -/
def PCB.fork (p : PCB) (new_pid new_tid : Nat) : Option (PCB × PCB) :=
  if thread_count p ≠ 1 then none
  else
    let child : PCB := ⟨new_pid, false, [], 0, [new_tid]⟩
    some (⟨p.pid, p.is_zombie, p.children ++ [new_pid], p.exit_code, p.tasks⟩, child)

/-! ### Concrete objects for the end-to-end scenario of claim C1 -/

/-- The 13 bytes of the scenario input. -/
def helloBytes : List Nat := [72, 101, 108, 108, 111, 44, 32, 119, 111, 114, 108, 100, 33]

/-- A zeroed block device. -/
def disk0 : Disk := fun _ _ => 0

/-- A small freshly formatted data-allocator state: one data-bitmap block at
block 2, data area starting at block 3. -/
def fsA : EfsState := ⟨⟨2, 1⟩, 3⟩

/-- `/filea` right after creation: `initialize(DiskInodeType::File)`. -/
def fileaFresh : DInode := DInode.initialize DiskInodeType.File

/-- `/filea` after `increase_size(13)` allocated data block 3 (bitmap bit 0):
size 13, `direct[0] = 3`, no indirect blocks. -/
def inoA : DInode := ⟨13, Function.update (fun _ => 0) 0 3, 0, 0, DiskInodeType.File⟩

/-- The device after the scenario's write: block 2 (the data bitmap) has bit 0
set, block 3 carries the 13 written bytes, everything else is zero. -/
def ovlA : Disk :=
  fun b i => if b = 3 ∧ i < 13 then helloBytes.getD i 0 else diskWrite disk0 2 0 1 b i

/-- The observable outcome of the scenario: write `helloBytes` at offset 0
of the fresh file, then read 233 bytes at offset 0; project the write
result, the read length and the read bytes. -/
def c1Scenario : Option (Nat × Nat × List Nat) :=
  (Inode.write_at fileaFresh fsA disk0 0 helloBytes).map fun r =>
    (r.1, (Inode.read_at r.2.1 r.2.2 0 233).1, (Inode.read_at r.2.1 r.2.2 0 233).2)

/-! ## Theorems -/

/-! ### Claim C10 (`fork` thread-count contract) -/

/-- Claim C10: `ProcessControlBlock::fork` asserts `thread_count() == 1` and
panics for a multi-threaded caller; when it succeeds the parent had exactly
one thread and the child is created with exactly one (main) thread. -/
theorem c10_fork_single_thread (p : PCB) (new_pid new_tid : Nat) :
    (∀ p' c, PCB.fork p new_pid new_tid = some (p', c) →
      thread_count p = 1 ∧ thread_count c = 1) ∧
    (thread_count p ≠ 1 → PCB.fork p new_pid new_tid = none) := by
  constructor
  · intro p' c h
    unfold PCB.fork at h
    split at h
    · exact absurd h (by simp)
    · rename_i hth
      rw [not_not] at hth
      refine ⟨hth, ?_⟩
      have hc : c = ⟨new_pid, false, [], 0, [new_tid]⟩ := by
        simpa using congrArg (fun o => (o.map Prod.snd).getD c) h.symm
      rw [hc]
      rfl
  · intro h
    unfold PCB.fork
    simp [h]

/-- Witness for C10 at a concrete single-threaded process. -/
theorem c10_fork_single_thread_witness :
    (∀ p' c, PCB.fork ⟨1, false, [], 0, [0]⟩ 2 0 = some (p', c) →
      thread_count ⟨1, false, [], 0, [0]⟩ = 1 ∧ thread_count c = 1) ∧
    (thread_count ⟨1, false, [], 0, [0]⟩ ≠ 1 → PCB.fork ⟨1, false, [], 0, [0]⟩ 2 0 = none) :=
  c10_fork_single_thread ⟨1, false, [], 0, [0]⟩ 2 0

/-! ### Claim C9 (`mmap_va_allocator` windows) -/

/-- `VirtAddr::from` is the identity below `2^39`. -/
theorem vaFrom_eq_self (v : Nat) (h : v < 2 ^ 39) : vaFrom v = v :=
  Nat.mod_eq_of_lt h

/-- Counterexample for C9 as stated: an allocation of length `2^39` wraps
`curr_va` back to the base (`(start + len) & VA_MASK` in `alloc`), so the
next window starts at the same address — the windows of the run
`[2^39, PAGE_SIZE]` overlap and are not strictly increasing, although every
length is nonzero and the base is page-aligned. -/
theorem c9_va_allocator_counterexample :
    (∀ l ∈ [2 ^ 39, PAGE_SIZE], 0 < l) ∧ MMAP_AREA_BASE % PAGE_SIZE = 0 ∧
    allocSeq MMAP_AREA_BASE [2 ^ 39, PAGE_SIZE] =
      [(MMAP_AREA_BASE, 2 ^ 39), (MMAP_AREA_BASE, PAGE_SIZE)] ∧
    ¬ ((allocSeq MMAP_AREA_BASE [2 ^ 39, PAGE_SIZE]).Pairwise fun a b => a.1 + a.2 ≤ b.1) ∧
    ¬ ((allocSeq MMAP_AREA_BASE [2 ^ 39, PAGE_SIZE]).Pairwise fun a b => a.1 < b.1) := by
  refine ⟨by decide, by decide, by decide, by decide, by decide⟩

/-- Successive allocator states only move forward, page-aligned, as long as
no window reaches the 39-bit wrap. -/
theorem allocSeq_start_ge (lens : List Nat) (va : Nat)
    (hnw : ∀ w ∈ allocSeq va lens, w.1 + w.2 < 2 ^ 39) :
    ∀ w ∈ allocSeq va lens, va ≤ w.1 := by
  induction lens generalizing va with
  | nil => simp [allocSeq]
  | cons len rest ih =>
    have hhead : va + len < 2 ^ 39 :=
      hnw (va, len) (by simp [allocSeq, VirtAddressAllocator.alloc])
    have hfrom : vaFrom (va + len) = va + len := vaFrom_eq_self _ hhead
    have hunfold : allocSeq va (len :: rest) =
        (va, len) :: allocSeq (vaCeil (va + len) * PAGE_SIZE) rest := by
      simp only [allocSeq, VirtAddressAllocator.alloc]
      rw [hfrom]
    rw [hunfold] at hnw ⊢
    intro w hw
    rcases List.mem_cons.mp hw with h | h
    · simp [h]
    · have h2 := ih (vaCeil (va + len) * PAGE_SIZE)
        (fun w hw => hnw w (List.mem_cons_of_mem _ hw)) w h
      have h3 : va + len ≤ vaCeil (va + len) * PAGE_SIZE := by
        unfold vaCeil PAGE_SIZE
        omega
      omega

/-- Claim C9 (amended): every window handed out by `VirtAddressAllocator`
(as used via `mmap_va_allocator`) starts page-aligned at or above the base,
and for nonzero lengths the windows are pairwise non-overlapping and
strictly increasing — provided no window reaches the 39-bit boundary, since
`alloc` truncates `curr_va + len` to `2^39` (`VirtAddr::from`) and a wrap
restarts the allocator inside already-issued windows. -/
theorem c9_va_allocator_windows (base : Nat) (lens : List Nat)
    (hb : base % PAGE_SIZE = 0) (hlens : ∀ l ∈ lens, 0 < l)
    (hnw : ∀ w ∈ allocSeq base lens, w.1 + w.2 < 2 ^ 39) :
    (∀ w ∈ allocSeq base lens, w.1 % PAGE_SIZE = 0 ∧ base ≤ w.1) ∧
    (allocSeq base lens).Pairwise (fun a b => a.1 + a.2 ≤ b.1) ∧
    (allocSeq base lens).Pairwise (fun a b => a.1 < b.1) := by
  induction lens generalizing base with
  | nil => simp [allocSeq]
  | cons len rest ih =>
    have hlen : 0 < len := hlens len (by simp)
    have hrest : ∀ l ∈ rest, 0 < l := fun l hl => hlens l (by simp [hl])
    have hhead : base + len < 2 ^ 39 :=
      hnw (base, len) (by simp [allocSeq, VirtAddressAllocator.alloc])
    have hfrom : vaFrom (base + len) = base + len := vaFrom_eq_self _ hhead
    have hunfold : allocSeq base (len :: rest) =
        (base, len) :: allocSeq (vaCeil (base + len) * PAGE_SIZE) rest := by
      simp only [allocSeq, VirtAddressAllocator.alloc]
      rw [hfrom]
    have hbase' : (vaCeil (base + len) * PAGE_SIZE) % PAGE_SIZE = 0 := Nat.mul_mod_left _ _
    have hstep : base + len ≤ vaCeil (base + len) * PAGE_SIZE := by
      unfold vaCeil PAGE_SIZE
      omega
    rw [hunfold] at hnw ⊢
    have hnw' : ∀ w ∈ allocSeq (vaCeil (base + len) * PAGE_SIZE) rest, w.1 + w.2 < 2 ^ 39 :=
      fun w hw => hnw w (List.mem_cons_of_mem _ hw)
    obtain ⟨ih1, ih2, ih3⟩ := ih (vaCeil (base + len) * PAGE_SIZE) hbase' hrest hnw'
    refine ⟨?_, ?_, ?_⟩
    · intro w hw
      rcases List.mem_cons.mp hw with h | h
      · simp [h, hb]
      · obtain ⟨ha, hge⟩ := ih1 w h
        exact ⟨ha, by omega⟩
    · rw [List.pairwise_cons]
      refine ⟨?_, ih2⟩
      intro w hw
      have := allocSeq_start_ge rest (vaCeil (base + len) * PAGE_SIZE) hnw' w hw
      omega
    · rw [List.pairwise_cons]
      refine ⟨?_, ih3⟩
      intro w hw
      have := allocSeq_start_ge rest (vaCeil (base + len) * PAGE_SIZE) hnw' w hw
      omega

/-- Witness for C9: three allocations of lengths 5, 4096 and 1 from the
(spec-modelled) base, all far below the 39-bit wrap. -/
theorem c9_va_allocator_windows_witness :
    (∀ w ∈ allocSeq MMAP_AREA_BASE [5, 4096, 1], w.1 % PAGE_SIZE = 0 ∧ MMAP_AREA_BASE ≤ w.1) ∧
    (allocSeq MMAP_AREA_BASE [5, 4096, 1]).Pairwise (fun a b => a.1 + a.2 ≤ b.1) ∧
    (allocSeq MMAP_AREA_BASE [5, 4096, 1]).Pairwise (fun a b => a.1 < b.1) :=
  c9_va_allocator_windows MMAP_AREA_BASE [5, 4096, 1] (by decide) (by decide) (by decide)

/-! ### Claim C4 (root directory `.` / `..`) -/

/-- Claim C4 (code bug): `EasyFileSystem::create` initializes the root inode
with `initialize(DiskInodeType::Directory)` only — its size is 0 and it holds
zero directory entries, in particular neither of the two entries
(`.` and `..`) that `DiskInode::initialize_dir` writes into every directory
created through `create_dir`. -/
theorem c4_root_created_without_dot_entries :
    efsCreateRootInode.size = 0 ∧
    dirFileCount efsCreateRootInode = 0 ∧
    initialize_dir_entries 0 0 = [(".", 0), ("..", 0)] ∧
    (initialize_dir_entries 0 0).length = 2 := by
  refine ⟨rfl, rfl, rfl, rfl⟩

/-! ### Claim C8 (`increase_size` with `new_size ≤ size`) -/

/-- Counterexample for C8 as stated: at the disk-inode layer (the cited
`DiskInode::increase_size`), growing a 32-byte inode "to" 32 bytes is not a
no-op — the `assert!(new_size > self.size)` fails (a panic, modelled as
`none`), so the call does not return the inode unchanged. -/
theorem c8_increase_size_counterexample :
    DInode.increase_size ⟨32, fun _ => 0, 0, 0, DiskInodeType.File⟩ 32 [] disk0 = none ∧
    (32 : Nat) ≤ 32 ∧
    DInode.increase_size ⟨32, fun _ => 0, 0, 0, DiskInodeType.File⟩ 32 [] disk0 ≠
      some (⟨32, fun _ => 0, 0, 0, DiskInodeType.File⟩, disk0) := by
  refine ⟨rfl, le_refl _, ?_⟩
  intro h
  simpa [DInode.increase_size] using h

/-- Claim C8 (amended): the vfs-layer `Inode::increase_size` returns
immediately when `new_size ≤ size`, leaving the disk inode, the device and
the allocator state untouched and consuming no blocks; the disk-layer
`DiskInode::increase_size` instead asserts strictly increasing size and
panics for any `new_size ≤ size`. -/
theorem c8_increase_size_noop (new_size : Nat) (ino : DInode) (fs : EfsState) (disk : Disk)
    (h : new_size ≤ ino.size) :
    Inode.increase_size new_size ino fs disk = some (ino, disk) ∧
    (∀ ns, ns ≤ ino.size → ∀ bs d, DInode.increase_size ino ns bs d = none) := by
  constructor
  · unfold Inode.increase_size
    simp [h]
  · intro ns hns bs d
    unfold DInode.increase_size
    simp [Nat.not_lt.mpr hns]

/-- Witness for C8 at `new_size = size = 32`. -/
theorem c8_increase_size_noop_witness :
    Inode.increase_size 32 ⟨32, fun _ => 0, 0, 0, DiskInodeType.File⟩ fsA disk0 =
      some (⟨32, fun _ => 0, 0, 0, DiskInodeType.File⟩, disk0) ∧
    (∀ ns, ns ≤ (⟨32, fun _ => 0, 0, 0, DiskInodeType.File⟩ : DInode).size →
      ∀ bs d, DInode.increase_size ⟨32, fun _ => 0, 0, 0, DiskInodeType.File⟩ ns bs d = none) :=
  c8_increase_size_noop 32 ⟨32, fun _ => 0, 0, 0, DiskInodeType.File⟩ fsA disk0 (by decide)

/-! ### Claim C2 (`sys_waitpid`) -/

/-- Counterexample for C2 as stated: with `pid = -1`, a living first child
and a zombie second child, `sys_waitpid` returns the would-block marker −2
although a matching child has exited. -/
theorem c2_waitpid_counterexample :
    (sys_waitpid (-1) [⟨2, false, 0⟩, ⟨3, true, 7⟩]).1 = -2 ∧
    (∃ c ∈ [(⟨2, false, 0⟩ : ChildProc), ⟨3, true, 7⟩],
      waitpidMatch (-1) c = true ∧ c.is_zombie = true) := by
  constructor
  · rfl
  · exact ⟨⟨3, true, 7⟩, by simp, by decide, rfl⟩

/-- `findChild` finds the first matching child. -/
theorem findChild_spec (pid : Int) (children : List ChildProc) :
    (findChild pid children = none → ∀ c ∈ children, waitpidMatch pid c = false) ∧
    (∀ idx p, findChild pid children = some (idx, p) →
      children.get? idx = some p ∧ waitpidMatch pid p = true ∧
      ∀ k, k < idx → ∀ q, children.get? k = some q → waitpidMatch pid q = false) := by
  induction children with
  | nil => simp [findChild]
  | cons c cs ih =>
    by_cases hm : waitpidMatch pid c
    · constructor
      · intro hnone
        simp [findChild, hm] at hnone
      · intro idx p hfind
        simp only [findChild, hm, if_true] at hfind
        have h1 : 0 = idx ∧ c = p := by
          constructor
          · exact congrArg (fun o => (o.getD (0, c)).1) hfind
          · exact congrArg (fun o => (o.getD (0, c)).2) hfind
        obtain ⟨h1, h2⟩ := h1
        subst h1
        subst h2
        refine ⟨rfl, hm, ?_⟩
        intro k hk
        omega
    · have hm' : waitpidMatch pid c = false := by
        simpa using hm
      constructor
      · intro hnone c' hc'
        simp only [findChild, hm', Bool.false_eq_true, if_false, Option.map_eq_none'] at hnone
        rcases List.mem_cons.mp hc' with h | h
        · subst h
          exact hm'
        · exact ih.1 hnone c' h
      · intro idx p hfind
        simp only [findChild, hm', Bool.false_eq_true, if_false] at hfind
        rcases hr : findChild pid cs with _ | r
        · rw [hr] at hfind
          simp at hfind
        · rw [hr] at hfind
          simp only [Option.map_some'] at hfind
          have h1 : r.1 + 1 = idx ∧ r.2 = p := by
            constructor
            · exact congrArg (fun o => (o.getD (0, c)).1) hfind
            · exact congrArg (fun o => (o.getD (0, c)).2) hfind
          obtain ⟨h1, h2⟩ := h1
          subst h1
          subst h2
          obtain ⟨hget, hmatch, hbefore⟩ := ih.2 r.1 r.2 (by rw [hr])
          refine ⟨by simpa using hget, hmatch, ?_⟩
          intro k hk q hq
          match k with
          | 0 =>
            simp only [List.get?_cons_zero, Option.some.injEq] at hq
            subst hq
            exact hm'
          | k' + 1 =>
            exact hbefore k' (by omega) q (by simpa using hq)

/-- Claim C2 (amended): `sys_waitpid` examines only the FIRST child matching
`pid` (every child matches when `pid = -1`): with no matching child it
returns −1 and changes nothing; when the first matching child is a zombie it
removes exactly that child, writes its exit code and returns its pid; when
the first matching child is still alive it returns −2 — even if some later
matching child has already exited. -/
theorem c2_waitpid_first_match (pid : Int) (children : List ChildProc) :
    (findChild pid children = none →
      sys_waitpid pid children = (-1, children, none) ∧
      ∀ c ∈ children, waitpidMatch pid c = false) ∧
    (∀ idx p, findChild pid children = some (idx, p) →
      children.get? idx = some p ∧ waitpidMatch pid p = true ∧
      (∀ k, k < idx → ∀ q, children.get? k = some q → waitpidMatch pid q = false) ∧
      (p.is_zombie = false → sys_waitpid pid children = (-2, children, none)) ∧
      (p.is_zombie = true →
        sys_waitpid pid children =
          ((p.pid : Int), children.eraseIdx idx, some p.exit_code))) := by
  constructor
  · intro hnone
    refine ⟨?_, (findChild_spec pid children).1 hnone⟩
    unfold sys_waitpid
    rw [hnone]
  · intro idx p hfind
    obtain ⟨hget, hmatch, hbefore⟩ := (findChild_spec pid children).2 idx p hfind
    refine ⟨hget, hmatch, hbefore, ?_, ?_⟩
    · intro hz
      unfold sys_waitpid
      rw [hfind]
      simp [hz]
    · intro hz
      unfold sys_waitpid
      rw [hfind]
      simp [hz]

/-- Witness for C2: a concrete two-child list whose first matching child is
the zombie child with pid 3. -/
theorem c2_waitpid_first_match_witness :
    findChild 3 [⟨2, false, 0⟩, ⟨3, true, 7⟩] = some (1, ⟨3, true, 7⟩) ∧
    sys_waitpid 3 [⟨2, false, 0⟩, ⟨3, true, 7⟩] =
      (3, [⟨2, false, 0⟩], some 7) := by
  refine ⟨by decide, ?_⟩
  have h := ((c2_waitpid_first_match 3 [⟨2, false, 0⟩, ⟨3, true, 7⟩]).2 1 ⟨3, true, 7⟩
    (by decide)).2.2.2.2 rfl
  simpa using h

/-! ### Claim C5 (`FileMapping::sync`) -/

/-- Counterexample for C5 as stated: a dirty page whose (single) mapped
range covers only 100 bytes from its offset, in a 8192-byte file, is written
back with 100 bytes — not `min(4096, file_size − offset) = 4096`. -/
theorem c5_sync_counterexample :
    FileMapping.sync 8192 (fun v => if v = 1 then some true else none)
        [⟨268435456, 100, 0⟩] [⟨0, 1, 9⟩] = some [(0, 100)] ∧
    (100 : Nat) ≠ min PAGE_SIZE (8192 - 0) := by
  constructor
  · decide
  · decide

/-- All candidates that `syncVaLen` maximises over are at most a page. -/
theorem syncVaLen_le_page (ranges : List MapRange) (offset : Nat) (vl : Nat)
    (h : syncVaLen ranges offset = some vl) : vl ≤ PAGE_SIZE := by
  unfold syncVaLen at h
  obtain ⟨hmem, -⟩ := List.max?_eq_some_iff'.mp h
  simp only [List.mem_map] at hmem
  obtain ⟨r, -, hr⟩ := hmem
  by_cases hc : r.offset ≤ offset ∧ offset < r.offset + r.len
  · rw [if_pos hc] at hr
    omega
  · rw [if_neg hc] at hr
    omega

/-- If some range covers a full page past `offset`, the maximised `va_len`
is exactly `PAGE_SIZE`. -/
theorem syncVaLen_full_page (ranges : List MapRange) (offset : Nat)
    (hcover : ∃ r ∈ ranges, r.offset ≤ offset ∧ offset + PAGE_SIZE ≤ r.offset + r.len) :
    syncVaLen ranges offset = some PAGE_SIZE := by
  obtain ⟨r, hrmem, hr1, hr2⟩ := hcover
  unfold syncVaLen
  refine List.max?_eq_some_iff'.mpr ⟨?_, ?_⟩
  · refine List.mem_map.mpr ⟨r, hrmem, ?_⟩
    have hc : r.offset ≤ offset ∧ offset < r.offset + r.len := by
      have : 0 < PAGE_SIZE := by decide
      exact ⟨hr1, by omega⟩
    rw [if_pos hc]
    omega
  · intro x hx
    simp only [List.mem_map] at hx
    obtain ⟨r', -, hr'⟩ := hx
    by_cases hc : r'.offset ≤ offset ∧ offset < r'.offset + r'.len
    · rw [if_pos hc] at hr'
      omega
    · rw [if_neg hc] at hr'
      omega

/-- The inductive core of the C5 proof: soundness of the write list, the
write performed for every dirty in-file entry, and absence of writes for
clean or past-the-end entries. -/
theorem sync_writes_spec (file_size : Nat) (dirty : Nat → Option Bool)
    (ranges : List MapRange) (entries : List FMapEntry) (ws : List (Nat × Nat))
    (hsorted : entries.Pairwise (fun a b => a.offset < b.offset))
    (h : FileMapping.sync file_size dirty ranges entries = some ws) :
    (∀ off wl, (off, wl) ∈ ws →
      ∃ en ∈ entries, en.offset = off ∧ dirty en.vpn = some true ∧ off < file_size ∧
        ∃ vl, syncVaLen ranges off = some vl ∧ wl = min vl (file_size - off)) ∧
    (∀ en ∈ entries, dirty en.vpn = some true → en.offset < file_size →
      ∃ vl, syncVaLen ranges en.offset = some vl ∧
        (en.offset, min vl (file_size - en.offset)) ∈ ws) ∧
    (∀ en ∈ entries, (dirty en.vpn = some false ∨ file_size ≤ en.offset) →
      ∀ wl, (en.offset, wl) ∉ ws) := by
  induction entries generalizing ws with
  | nil =>
    simp only [FileMapping.sync, Option.some.injEq] at h
    subst h
    refine ⟨by simp, by simp, by simp⟩
  | cons en rest ih =>
    have hpc := List.pairwise_cons.mp hsorted
    have hlt : ∀ b ∈ rest, en.offset < b.offset := hpc.1
    have hsorted' : rest.Pairwise (fun a b => a.offset < b.offset) := hpc.2
    rcases hd : dirty en.vpn with _ | d
    · rw [FileMapping.sync, hd] at h
      exact absurd h (by simp)
    · rw [FileMapping.sync, hd] at h
      cases d with
      | false =>
        simp only [Bool.false_eq_true, not_false_eq_true, if_true] at h
        obtain ⟨ih1, ih2, ih3⟩ := ih ws hsorted' h
        refine ⟨?_, ?_, ?_⟩
        · intro off wl hw
          obtain ⟨en', hmem, rest'⟩ := ih1 off wl hw
          exact ⟨en', List.mem_cons_of_mem _ hmem, rest'⟩
        · intro en' hmem hdirty hin
          rcases List.mem_cons.mp hmem with hEq | hmem'
          · subst hEq
            rw [hd] at hdirty
            exact absurd hdirty (by simp)
          · exact ih2 en' hmem' hdirty hin
        · intro en' hmem hside wl hw
          rcases List.mem_cons.mp hmem with hEq | hmem'
          · subst hEq
            obtain ⟨en'', hmem'', hoff, -⟩ := ih1 en'.offset wl hw
            have := hlt en'' hmem''
            omega
          · exact ih3 en' hmem' hside wl hw
      | true =>
        simp only [not_true_eq_false, if_false] at h
        by_cases hsz : en.offset ≥ file_size
        · rw [if_pos hsz] at h
          obtain ⟨ih1, ih2, ih3⟩ := ih ws hsorted' h
          refine ⟨?_, ?_, ?_⟩
          · intro off wl hw
            obtain ⟨en', hmem, rest'⟩ := ih1 off wl hw
            exact ⟨en', List.mem_cons_of_mem _ hmem, rest'⟩
          · intro en' hmem hdirty hin
            rcases List.mem_cons.mp hmem with hEq | hmem'
            · subst hEq
              omega
            · exact ih2 en' hmem' hdirty hin
          · intro en' hmem hside wl hw
            rcases List.mem_cons.mp hmem with hEq | hmem'
            · subst hEq
              obtain ⟨en'', hmem'', hoff, -⟩ := ih1 en'.offset wl hw
              have := hlt en'' hmem''
              omega
            · exact ih3 en' hmem' hside wl hw
        · rw [if_neg hsz] at h
          rcases hvl : syncVaLen ranges en.offset with _ | vl
          · rw [hvl] at h
            exact absurd h (by simp)
          · rw [hvl] at h
            rcases hrest : FileMapping.sync file_size dirty ranges rest with _ | ws'
            · rw [hrest] at h
              exact absurd h (by simp)
            · rw [hrest] at h
              have hws : ws = (en.offset, min vl (file_size - en.offset)) :: ws' := by
                simpa using h.symm
              subst hws
              obtain ⟨ih1, ih2, ih3⟩ := ih ws' hsorted' hrest
              refine ⟨?_, ?_, ?_⟩
              · intro off wl hw
                rcases List.mem_cons.mp hw with hEq | hw'
                · have h1 : off = en.offset ∧ wl = min vl (file_size - en.offset) := by
                    constructor
                    · exact congrArg Prod.fst hEq
                    · exact congrArg Prod.snd hEq
                  obtain ⟨h1, h2⟩ := h1
                  subst h1
                  subst h2
                  exact ⟨en, List.mem_cons_self _ _, rfl, hd, by omega, vl, hvl, rfl⟩
                · obtain ⟨en', hmem, rest'⟩ := ih1 off wl hw'
                  exact ⟨en', List.mem_cons_of_mem _ hmem, rest'⟩
              · intro en' hmem hdirty hin
                rcases List.mem_cons.mp hmem with hEq | hmem'
                · subst hEq
                  exact ⟨vl, hvl, List.mem_cons_self _ _⟩
                · obtain ⟨vl', hvl', hm⟩ := ih2 en' hmem' hdirty hin
                  exact ⟨vl', hvl', List.mem_cons_of_mem _ hm⟩
              · intro en' hmem hside wl hw
                rcases List.mem_cons.mp hmem with hEq | hmem'
                · subst hEq
                  rcases hside with hside | hside
                  · rw [hd] at hside
                    exact absurd hside (by simp)
                  · omega
                · rcases List.mem_cons.mp hw with hEq | hw'
                  · have h1 : en'.offset = en.offset := congrArg Prod.fst hEq
                    have := hlt en' hmem'
                    omega
                  · exact ih3 en' hmem' hside wl hw'

/-- Claim C5 (amended): `FileMapping::sync` writes back every map entry whose
pte is dirty and whose offset lies strictly inside the file, with exactly
`min(va_len, file_size − offset)` bytes, where `va_len` maximises
`min(PAGE_SIZE, range_end_offset − offset)` over the covering ranges; every
issued write is of that shape; the length is the claimed
`min(4096, file_size − offset)` whenever some covering range extends at
least a full page past the offset; and clean entries and entries at or
beyond the file size are not written back.  (Entries are the
strictly-sorted items of the offset-keyed `BTreeMap`.) -/
theorem c5_sync_write_lengths (file_size : Nat) (dirty : Nat → Option Bool)
    (ranges : List MapRange) (entries : List FMapEntry) (ws : List (Nat × Nat))
    (hsorted : entries.Pairwise (fun a b => a.offset < b.offset))
    (h : FileMapping.sync file_size dirty ranges entries = some ws) :
    (∀ off wl, (off, wl) ∈ ws →
      ∃ en ∈ entries, en.offset = off ∧ dirty en.vpn = some true ∧ off < file_size ∧
        ∃ vl, syncVaLen ranges off = some vl ∧ wl = min vl (file_size - off)) ∧
    (∀ en ∈ entries, dirty en.vpn = some true → en.offset < file_size →
      ∃ vl, syncVaLen ranges en.offset = some vl ∧
        (en.offset, min vl (file_size - en.offset)) ∈ ws) ∧
    (∀ en ∈ entries, dirty en.vpn = some true → en.offset < file_size →
      (∃ r ∈ ranges, r.offset ≤ en.offset ∧ en.offset + PAGE_SIZE ≤ r.offset + r.len) →
      (en.offset, min PAGE_SIZE (file_size - en.offset)) ∈ ws) ∧
    (∀ en ∈ entries, (dirty en.vpn = some false ∨ file_size ≤ en.offset) →
      ∀ wl, (en.offset, wl) ∉ ws) := by
  obtain ⟨hA, hB, hD⟩ := sync_writes_spec file_size dirty ranges entries ws hsorted h
  refine ⟨hA, hB, ?_, hD⟩
  intro en hmem hdirty hin hcov
  obtain ⟨vl, hvl, hmemw⟩ := hB en hmem hdirty hin
  have hfull := syncVaLen_full_page ranges en.offset hcov
  rw [hvl] at hfull
  have hv : vl = PAGE_SIZE := by simpa using hfull
  subst hv
  exact hmemw

/-- Witness for C5 at the single-entry mapping of the counterexample: the one
dirty in-file entry at offset 0 is written back with
`min(va_len, file_size − 0) = 100` bytes. -/
theorem c5_sync_write_lengths_witness :
    (∀ off wl, (off, wl) ∈ [((0 : Nat), (100 : Nat))] →
      ∃ en ∈ [(⟨0, 1, 9⟩ : FMapEntry)], en.offset = off ∧
        (fun v => if v = 1 then some true else none) en.vpn = some true ∧ off < 8192 ∧
        ∃ vl, syncVaLen [⟨268435456, 100, 0⟩] off = some vl ∧ wl = min vl (8192 - off)) ∧
    (∀ en ∈ [(⟨0, 1, 9⟩ : FMapEntry)],
      (fun v => if v = 1 then some true else none) en.vpn = some true → en.offset < 8192 →
      ∃ vl, syncVaLen [⟨268435456, 100, 0⟩] en.offset = some vl ∧
        (en.offset, min vl (8192 - en.offset)) ∈ [((0 : Nat), (100 : Nat))]) ∧
    (∀ en ∈ [(⟨0, 1, 9⟩ : FMapEntry)],
      (fun v => if v = 1 then some true else none) en.vpn = some true → en.offset < 8192 →
      (∃ r ∈ [(⟨268435456, 100, 0⟩ : MapRange)], r.offset ≤ en.offset ∧
        en.offset + PAGE_SIZE ≤ r.offset + r.len) →
      (en.offset, min PAGE_SIZE (8192 - en.offset)) ∈ [((0 : Nat), (100 : Nat))]) ∧
    (∀ en ∈ [(⟨0, 1, 9⟩ : FMapEntry)],
      ((fun v => if v = 1 then some true else none) en.vpn = some false ∨ 8192 ≤ en.offset) →
      ∀ wl, (en.offset, wl) ∉ [((0 : Nat), (100 : Nat))]) :=
  c5_sync_write_lengths 8192 (fun v => if v = 1 then some true else none)
    [⟨268435456, 100, 0⟩] [⟨0, 1, 9⟩] [(0, 100)] (by simp) (by decide)

/-! ### Claim C7 (`sys_munmap`) -/

/-- `fillRange` leaves slots outside `[curr, curr+n)` unchanged. -/
theorem fillRange_outside (n : Nat) : ∀ (f : Nat → Nat) (curr : Nat) (iter : List Nat)
    (f' : Nat → Nat) (it' : List Nat), fillRange f curr n iter = some (f', it') →
    ∀ j, (j < curr ∨ curr + n ≤ j) → f' j = f j := by
  induction n with
  | zero =>
    intro f curr iter f' it' h j hj
    simp only [fillRange, Option.some.injEq] at h
    have : f = f' := congrArg Prod.fst h
    rw [← this]
  | succ n ih =>
    intro f curr iter f' it' h j hj
    match iter with
    | [] => simp [fillRange] at h
    | b :: rest =>
      simp only [fillRange] at h
      have := ih (Function.update f curr b) (curr + 1) rest f' it' h j (by omega)
      rw [this, Function.update_noteq (by omega)]

/-- What `DiskInode::increase_size` leaves in the metadata fields when run on
a freshly initialized inode. -/
theorem increase_size_fresh_shape (ty : DiskInodeType) (s : Nat) (bs : List Nat) (dk : Disk)
    (ino : DInode) (d1 : Disk)
    (h : DInode.increase_size ⟨0, fun _ => 0, 0, 0, ty⟩ s bs dk = some (ino, d1)) :
    ino.size = s ∧ ino.ty = ty ∧
    (∀ i, min INODE_DIRECT_COUNT (dataBlocks s) ≤ i → ino.direct i = 0) ∧
    (dataBlocks s ≤ INODE_DIRECT_COUNT → ino.indirect1 = 0) ∧
    (dataBlocks s ≤ INDIRECT1_BOUND → ino.indirect2 = 0) := by
  unfold DInode.increase_size at h
  by_cases hc1 : ¬ s > 0
  · rw [if_pos hc1] at h
    exact absurd h (by simp)
  rw [if_neg hc1] at h
  by_cases hc2 : ¬ bs.length ≥ blocks_num_needed ⟨0, fun _ => 0, 0, 0, ty⟩ s
  · rw [if_pos hc2] at h
    exact absurd h (by simp)
  rw [if_neg hc2] at h
  rw [Option.bind_eq_some] at h
  obtain ⟨s1, hfill, h⟩ := h
  have hdirect : ∀ i, min INODE_DIRECT_COUNT (dataBlocks s) ≤ i → s1.1 i = 0 := by
    intro i hi
    have hdz : dataBlocks (0 : Nat) = 0 := by decide
    obtain ⟨f1, it1⟩ := s1
    exact fillRange_outside _ _ _ _ _ _ hfill i (by dsimp only at hi ⊢; omega)
  by_cases hbig : dataBlocks s > INODE_DIRECT_COUNT
  · rw [if_pos hbig] at h
    by_cases hcur : max (dataBlocks 0) (min INODE_DIRECT_COUNT (dataBlocks s)) ≠
        INODE_DIRECT_COUNT
    · rw [if_pos hcur] at h
      exact absurd h (by simp)
    rw [if_neg hcur] at h
    rw [Option.bind_eq_some] at h
    obtain ⟨s2, -, h⟩ := h
    rw [Option.bind_eq_some] at h
    obtain ⟨s3, -, h⟩ := h
    by_cases hbig2 : dataBlocks s - INODE_DIRECT_COUNT > INODE_INDIRECT1_COUNT
    · rw [if_pos hbig2] at h
      by_cases hcur2 : max (max (dataBlocks 0) (min INODE_DIRECT_COUNT (dataBlocks s)) -
          INODE_DIRECT_COUNT) (min INODE_INDIRECT1_COUNT (dataBlocks s - INODE_DIRECT_COUNT)) ≠
          INODE_INDIRECT1_COUNT
      · rw [if_pos hcur2] at h
        exact absurd h (by simp)
      rw [if_neg hcur2] at h
      rw [Option.bind_eq_some] at h
      obtain ⟨s4, -, h⟩ := h
      rw [Option.bind_eq_some] at h
      obtain ⟨s5, -, h⟩ := h
      simp only [Option.some.injEq, Prod.mk.injEq] at h
      obtain ⟨hino, -⟩ := h
      subst hino
      refine ⟨rfl, rfl, hdirect, ?_, ?_⟩
      · intro hle
        simp only [INODE_DIRECT_COUNT] at hbig hle
        omega
      · intro hle
        simp only [INODE_DIRECT_COUNT, INODE_INDIRECT1_COUNT, BLOCK_SZ] at hbig hbig2
        simp only [INDIRECT1_BOUND, DIRECT_BOUND, INODE_DIRECT_COUNT,
          INODE_INDIRECT1_COUNT, BLOCK_SZ] at hle
        omega
    · rw [if_neg hbig2] at h
      simp only [Option.some.injEq, Prod.mk.injEq] at h
      obtain ⟨hino, -⟩ := h
      subst hino
      refine ⟨rfl, rfl, hdirect, ?_, fun _ => rfl⟩
      intro hle
      simp only [INODE_DIRECT_COUNT] at hbig hle
      omega
  · rw [if_neg hbig] at h
    simp only [Option.some.injEq, Prod.mk.injEq] at h
    obtain ⟨hino, -⟩ := h
    subst hino
    exact ⟨rfl, rfl, hdirect, fun _ => rfl, fun _ => rfl⟩

/-- The direct loop of `clear_size` pushes exactly `n` ids. -/
theorem clearDirectLoop_length (n : Nat) : ∀ (f : Nat → Nat) (c : Nat),
    (clearDirectLoop f c n).1.length = n := by
  induction n with
  | zero => intro f c; rfl
  | succ n ih =>
    intro f c
    simp only [clearDirectLoop, List.length_cons]
    rw [ih]

/-- The direct loop of `clear_size` zeroes exactly slots `[c, c+n)`. -/
theorem clearDirectLoop_snd (n : Nat) : ∀ (f : Nat → Nat) (c j : Nat),
    (clearDirectLoop f c n).2 j = if c ≤ j ∧ j < c + n then 0 else f j := by
  induction n with
  | zero =>
    intro f c j
    rw [if_neg (by omega)]
    rfl
  | succ n ih =>
    intro f c j
    simp only [clearDirectLoop]
    rw [ih]
    by_cases hj : c ≤ j ∧ j < c + (n + 1)
    · rw [if_pos hj]
      by_cases hj2 : c + 1 ≤ j ∧ j < c + 1 + n
      · rw [if_pos hj2]
      · rw [if_neg hj2]
        have hjc : j = c := by omega
        subst hjc
        rw [Function.update_same]
    · rw [if_neg hj, if_neg (by omega), Function.update_noteq (by omega)]

/-- `collectRange` pushes exactly `n` ids. -/
theorem collectRange_length (n : Nat) : ∀ (blk : Nat → Nat) (c : Nat),
    (collectRange blk c n).length = n := by
  induction n with
  | zero => intro blk c; rfl
  | succ n ih =>
    intro blk c
    simp only [collectRange, List.length_cons]
    rw [ih]

/-- Each full indirect1 entry contributes `1 + 128` pushed ids. -/
theorem clearInd2Full_length (n : Nat) : ∀ (disk : Disk) (blk : Nat → Nat) (k : Nat),
    (clearInd2Full disk blk k n).length = n * (1 + INODE_INDIRECT1_COUNT) := by
  induction n with
  | zero => intro disk blk k; rfl
  | succ n ih =>
    intro disk blk k
    simp only [clearInd2Full, List.length_cons, List.length_append]
    rw [ih, collectRange_length]
    ring

/-- `INODE_DIRECT_COUNT` as a numeral. -/
theorem IDC_eq : INODE_DIRECT_COUNT = 28 := rfl

/-- `INODE_INDIRECT1_COUNT` as a numeral. -/
theorem II1_eq : INODE_INDIRECT1_COUNT = 128 := rfl

/-- `INODE_INDIRECT2_COUNT` as a numeral. -/
theorem II2_eq : INODE_INDIRECT2_COUNT = 16384 := rfl

/-- `DIRECT_BOUND` as a numeral. -/
theorem DB_eq : DIRECT_BOUND = 28 := rfl

/-- `INDIRECT1_BOUND` as a numeral. -/
theorem I1B_eq : INDIRECT1_BOUND = 156 := rfl

/-- `total_blocks` in plain arithmetic. -/
theorem total_blocks_arith (s : Nat) :
    total_blocks s =
      if dataBlocks s > 156 then dataBlocks s + 2 + (dataBlocks s - 156 + 127) / 128
      else if dataBlocks s > 28 then dataBlocks s + 1 else dataBlocks s := by
  unfold total_blocks
  rw [I1B_eq, DB_eq, II1_eq]
  by_cases h1 : dataBlocks s > 156
  · rw [if_pos h1, if_pos h1, if_pos (by omega)]
    omega
  · rw [if_neg h1, if_neg h1]

/-- Full characterisation of `clear_size`: it succeeds whenever the
indirect2 bound holds, returns `total_blocks size` ids, and zeroes size,
the covered direct slots and the indirect fields it walked. -/
theorem clear_size_spec (ino : DInode) (disk : Disk)
    (h16 : dataBlocks ino.size - INODE_DIRECT_COUNT - INODE_INDIRECT1_COUNT ≤
      INODE_INDIRECT2_COUNT) :
    ∃ v ino', clear_size ino disk = some (v, ino') ∧
      v.length = total_blocks ino.size ∧
      ino'.size = 0 ∧ ino'.ty = ino.ty ∧
      (∀ j, ino'.direct j =
        if j < min (dataBlocks ino.size) INODE_DIRECT_COUNT then 0 else ino.direct j) ∧
      ino'.indirect1 =
        (if dataBlocks ino.size > INODE_DIRECT_COUNT then 0 else ino.indirect1) ∧
      ino'.indirect2 =
        (if dataBlocks ino.size - INODE_DIRECT_COUNT > INODE_INDIRECT1_COUNT then 0
          else ino.indirect2) := by
  rw [IDC_eq, II1_eq, II2_eq] at h16
  have hdir : ∀ j, (clearDirectLoop ino.direct 0
      (min (dataBlocks ino.size) INODE_DIRECT_COUNT)).2 j =
      if j < min (dataBlocks ino.size) INODE_DIRECT_COUNT then 0 else ino.direct j := by
    intro j
    rw [clearDirectLoop_snd]
    by_cases hj : j < min (dataBlocks ino.size) INODE_DIRECT_COUNT
    · rw [if_pos hj, if_pos (by omega)]
    · rw [if_neg hj, if_neg (by omega)]
  unfold clear_size
  rw [total_blocks_arith]
  simp only [IDC_eq, II1_eq, II2_eq]
  by_cases h28 : dataBlocks ino.size > 28
  · rw [if_pos h28]
    by_cases h128 : dataBlocks ino.size - 28 > 128
    · rw [if_pos h128, if_pos (by omega)]
      refine ⟨_, _, rfl, ?_, rfl, rfl, by simpa [IDC_eq] using hdir,
        by rw [if_pos h28], by rw [if_pos h128]⟩
      simp only [List.length_append, List.length_cons, clearDirectLoop_length,
        collectRange_length, clearInd2Full_length, II1_eq]
      have h156 : dataBlocks ino.size > 156 := by omega
      rw [if_pos h156]
      by_cases hb1 : 0 < (dataBlocks ino.size - 28 - 128) % 128
      · rw [if_pos hb1]
        simp only [List.length_cons, collectRange_length]
        omega
      · rw [if_neg hb1]
        simp only [List.length_nil]
        omega
    · rw [if_neg h128]
      refine ⟨_, _, rfl, ?_, rfl, rfl, by simpa [IDC_eq] using hdir,
        by rw [if_pos h28], by rw [if_neg h128]⟩
      simp only [List.length_append, List.length_cons, clearDirectLoop_length,
        collectRange_length]
      have h156 : ¬ dataBlocks ino.size > 156 := by omega
      rw [if_neg h156, if_pos h28]
      omega
  · rw [if_neg h28]
    refine ⟨_, _, rfl, ?_, rfl, rfl, by simpa [IDC_eq] using hdir,
      by rw [if_neg h28], by rw [if_neg (by omega)]⟩
    rw [clearDirectLoop_length]
    have h156 : ¬ dataBlocks ino.size > 156 := by omega
    rw [if_neg h156, if_neg h28]
    omega

/-- Claim C3: for a disk inode of size `s ≤ 8 MiB` whose blocks were
populated by `increase_size` (from a fresh `initialize`), `clear_size`
returns a list of exactly `total_blocks s` block ids, and afterwards the
inode's size is 0 and its direct / indirect1 / indirect2 references are all
zero. -/
theorem c3_clear_size_returns_total_blocks (ty : DiskInodeType) (s : Nat) (bs : List Nat)
    (dk : Disk) (ino : DInode) (d1 : Disk)
    (hgrow : DInode.increase_size ( DInode.initialize ty) s bs dk = some (ino, d1))
    (hs : s ≤ 8 * 1024 * 1024) :
    ∃ v ino', clear_size ino d1 = some (v, ino') ∧
      v.length = total_blocks s ∧
      ino'.size = 0 ∧ (∀ i < INODE_DIRECT_COUNT, ino'.direct i = 0) ∧
      ino'.indirect1 = 0 ∧ ino'.indirect2 = 0 := by
  have hgrow' : DInode.increase_size ⟨0, fun _ => 0, 0, 0, ty⟩ s bs dk = some (ino, d1) := hgrow
  obtain ⟨hsz, hty, hdirect, hi1, hi2⟩ := increase_size_fresh_shape ty s bs dk ino d1 hgrow'
  have hd : dataBlocks s ≤ 16384 := by
    unfold dataBlocks BLOCK_SZ
    omega
  obtain ⟨v, ino', hcs, hlen, hsz', hty', hdir', hind1, hind2⟩ :=
    clear_size_spec ino d1 (by rw [IDC_eq, II1_eq, II2_eq, hsz]; omega)
  refine ⟨v, ino', hcs, by rw [hlen, hsz], hsz', ?_, ?_, ?_⟩
  · intro i hi
    rw [hdir' i]
    by_cases hlt : i < min (dataBlocks ino.size) INODE_DIRECT_COUNT
    · rw [if_pos hlt]
    · rw [if_neg hlt]
      refine hdirect i ?_
      rw [hsz] at hlt
      omega
  · rw [hind1]
    by_cases h28 : dataBlocks ino.size > INODE_DIRECT_COUNT
    · rw [if_pos h28]
    · rw [if_neg h28]
      refine hi1 ?_
      rw [hsz] at h28
      omega
  · rw [hind2]
    by_cases h128 : dataBlocks ino.size - INODE_DIRECT_COUNT > INODE_INDIRECT1_COUNT
    · rw [if_pos h128]
    · rw [if_neg h128]
      refine hi2 ?_
      rw [hsz, IDC_eq, II1_eq] at h128
      rw [I1B_eq]
      omega

/-- Witness for C3: grow a fresh file inode to 1024 bytes with two blocks. -/
theorem c3_clear_size_returns_total_blocks_witness :
    ∃ v ino', clear_size
        ⟨1024, Function.update (Function.update (fun _ => 0) 0 5) 1 6, 0, 0,
          DiskInodeType.File⟩ disk0 = some (v, ino') ∧
      v.length = total_blocks 1024 ∧
      ino'.size = 0 ∧ (∀ i < INODE_DIRECT_COUNT, ino'.direct i = 0) ∧
      ino'.indirect1 = 0 ∧ ino'.indirect2 = 0 :=
  c3_clear_size_returns_total_blocks DiskInodeType.File 1024 [5, 6] disk0
    ⟨1024, Function.update (Function.update (fun _ => 0) 0 5) 1 6, 0, 0, DiskInodeType.File⟩
    disk0 (by rfl) (by omega)

/-! ### Claim C6 (`Bitmap::alloc` / `Bitmap::dealloc`) -/

/-- `BLOCK_BITS` as a numeral. -/
theorem BB_eq : BLOCK_BITS = 4096 := rfl

/-- The bit scan of `trailing_ones` either sees only set bits, or stops at
the first clear one. -/
theorem lowestClearAux_spec (w : Nat) : ∀ (n i : Nat),
    (lowestClearAux w i n = 64 ∧ ∀ k, i ≤ k → k < i + n → w.testBit k = true) ∨
    (i ≤ lowestClearAux w i n ∧ lowestClearAux w i n < i + n ∧
      w.testBit (lowestClearAux w i n) = false ∧
      ∀ k, i ≤ k → k < lowestClearAux w i n → w.testBit k = true) := by
  intro n
  induction n with
  | zero =>
    intro i
    left
    exact ⟨rfl, fun k h1 h2 => by omega⟩
  | succ n ih =>
    intro i
    by_cases hb : w.testBit i
    · have := ih (i + 1)
      rcases this with ⟨h64, hall⟩ | ⟨h1, h2, h3, h4⟩
      · left
        refine ⟨by simp [lowestClearAux, hb, h64], ?_⟩
        intro k hk1 hk2
        rcases Nat.eq_or_lt_of_le hk1 with hk | hk
        · exact hk ▸ hb
        · exact hall k (by omega) (by omega)
      · right
        have hres : lowestClearAux w i (n + 1) = lowestClearAux w (i + 1) n := by
          simp [lowestClearAux, hb]
        rw [hres]
        refine ⟨by omega, by omega, h3, ?_⟩
        intro k hk1 hk2
        rcases Nat.eq_or_lt_of_le hk1 with hk | hk
        · exact hk ▸ hb
        · exact h4 k (by omega) hk2
    · right
      have hres : lowestClearAux w i (n + 1) = i := by
        simp [lowestClearAux, hb]
      rw [hres]
      refine ⟨le_refl i, by omega, by simpa using hb, ?_⟩
      intro k hk1 hk2
      omega

/-- For a `u64` word that is not all ones, `trailing_ones` is the position
of the lowest clear bit. -/
theorem trailing_ones_spec (w : Nat) (hw : w < 2 ^ 64) (hne : w ≠ U64MAX) :
    trailing_ones w < 64 ∧ w.testBit (trailing_ones w) = false ∧
    ∀ k < trailing_ones w, w.testBit k = true := by
  rcases lowestClearAux_spec w 64 0 with ⟨-, hall⟩ | ⟨-, h2, h3, h4⟩
  · exfalso
    refine hne (Nat.eq_of_testBit_eq fun i => ?_)
    by_cases hi : i < 64
    · rw [hall i (by omega) (by omega)]
      unfold U64MAX
      rw [Nat.testBit_two_pow_sub_one]
      simp [hi]
    · rw [Nat.testBit_eq_false_of_lt (lt_of_lt_of_le hw (Nat.pow_le_pow_right (by omega) (by omega)))]
      unfold U64MAX
      rw [Nat.testBit_two_pow_sub_one]
      simp [hi]
  · exact ⟨by simpa using h2, h3, fun k hk => h4 k (by omega) hk⟩

/-- A full word has all 64 bits set. -/
theorem u64max_testBit (k : Nat) (hk : k < 64) : (U64MAX).testBit k = true := by
  unfold U64MAX
  rw [Nat.testBit_two_pow_sub_one]
  simp [hk]

/-- If the word scan misses, all scanned words are full. -/
theorem findFreeWordAux_none (blk : Nat → Nat) : ∀ (n j : Nat),
    findFreeWordAux blk j n = none → ∀ k, j ≤ k → k < j + n → blk k = U64MAX := by
  intro n
  induction n with
  | zero => intro j h k h1 h2; omega
  | succ n ih =>
    intro j h k h1 h2
    unfold findFreeWordAux at h
    by_cases hb : blk j ≠ U64MAX
    · rw [if_pos hb] at h
      simp at h
    · rw [if_neg hb] at h
      rcases Nat.eq_or_lt_of_le h1 with hk | hk
      · rw [← hk]
        simpa using hb
      · exact ih (j + 1) h k (by omega) (by omega)

/-- If the word scan hits, it hits the first non-full word. -/
theorem findFreeWordAux_some (blk : Nat → Nat) : ∀ (n j r : Nat),
    findFreeWordAux blk j n = some r →
    j ≤ r ∧ r < j + n ∧ blk r ≠ U64MAX ∧ ∀ k, j ≤ k → k < r → blk k = U64MAX := by
  intro n
  induction n with
  | zero => intro j r h; simp [findFreeWordAux] at h
  | succ n ih =>
    intro j r h
    unfold findFreeWordAux at h
    by_cases hb : blk j ≠ U64MAX
    · rw [if_pos hb] at h
      have hr : j = r := by simpa using h
      subst hr
      exact ⟨le_refl j, by omega, hb, fun k h1 h2 => by omega⟩
    · rw [if_neg hb] at h
      obtain ⟨h1, h2, h3, h4⟩ := ih (j + 1) r h
      refine ⟨by omega, by omega, h3, ?_⟩
      intro k hk1 hk2
      rcases Nat.eq_or_lt_of_le hk1 with hk | hk
      · rw [← hk]
        simpa using hb
      · exact h4 k (by omega) hk2

/-- A failing block scan means every word of the block is full. -/
theorem allocInBlock_none (disk : Disk) (bid : Nat)
    (h : allocInBlock disk bid = none) : ∀ j < 64, disk bid j = U64MAX := by
  intro j hj
  unfold allocInBlock at h
  rcases hf : findFreeWordAux (disk bid) 0 64 with _ | r
  · exact findFreeWordAux_none (disk bid) 64 0 hf j (by omega) (by omega)
  · rw [hf] at h
    simp at h

/-- A successful block scan returns the first non-full word, the position of
its lowest clear bit, and the device with that bit set. -/
theorem allocInBlock_some (disk : Disk) (bid : Nat) (j inner : Nat) (d' : Disk)
    (hw : ∀ j' < 64, disk bid j' < 2 ^ 64)
    (h : allocInBlock disk bid = some (j, inner, d')) :
    j < 64 ∧ inner < 64 ∧ (disk bid j).testBit inner = false ∧
    (∀ k < inner, (disk bid j).testBit k = true) ∧
    (∀ j' < j, disk bid j' = U64MAX) ∧
    d' = diskWrite disk bid j (disk bid j ||| (1 <<< inner)) := by
  unfold allocInBlock at h
  rcases hf : findFreeWordAux (disk bid) 0 64 with _ | r
  · rw [hf] at h
    simp at h
  · rw [hf] at h
    obtain ⟨-, hr2, hr3, hr4⟩ := findFreeWordAux_some (disk bid) 64 0 r hf
    simp only [Option.some.injEq, Prod.mk.injEq] at h
    obtain ⟨hj, hinner, hd⟩ := h
    subst hj
    obtain ⟨ht1, ht2, ht3⟩ := trailing_ones_spec (disk bid r) (hw r (by omega)) hr3
    subst hinner
    refine ⟨by omega, ht1, ht2, ht3, fun j' hj' => hr4 j' (by omega) hj', hd.symm⟩

/-- A failing block loop means every scanned block failed. -/
theorem allocLoopAux_none (sbid : Nat) (disk : Disk) : ∀ (n idx : Nat),
    allocLoopAux sbid disk idx n = none →
    ∀ i, idx ≤ i → i < idx + n → allocInBlock disk (i + sbid) = none := by
  intro n
  induction n with
  | zero => intro idx h i h1 h2; omega
  | succ n ih =>
    intro idx h i h1 h2
    unfold allocLoopAux at h
    rcases hb : allocInBlock disk (idx + sbid) with _ | ⟨j, inner, d''⟩
    · rw [hb] at h
      rcases Nat.eq_or_lt_of_le h1 with hk | hk
      · rw [← hk]
        exact hb
      · exact ih (idx + 1) h i (by omega) (by omega)
    · rw [hb] at h
      simp at h

/-- A successful block loop stops at the first block whose scan succeeds. -/
theorem allocLoopAux_some (sbid : Nat) (disk : Disk) : ∀ (n idx p : Nat) (d' : Disk),
    allocLoopAux sbid disk idx n = some (p, d') →
    ∃ i, idx ≤ i ∧ i < idx + n ∧
      (∀ i', idx ≤ i' → i' < i → allocInBlock disk (i' + sbid) = none) ∧
      ∃ j inner, allocInBlock disk (i + sbid) = some (j, inner, d') ∧
        p = i * BLOCK_BITS + j * 64 + inner := by
  intro n
  induction n with
  | zero => intro idx p d' h; simp [allocLoopAux] at h
  | succ n ih =>
    intro idx p d' h
    unfold allocLoopAux at h
    rcases hb : allocInBlock disk (idx + sbid) with _ | ⟨j, inner, d''⟩
    · rw [hb] at h
      obtain ⟨i, h1, h2, h3, hrest⟩ := ih (idx + 1) p d' h
      refine ⟨i, by omega, by omega, ?_, hrest⟩
      intro i' hi1 hi2
      rcases Nat.eq_or_lt_of_le hi1 with hk | hk
      · rw [← hk]
        exact hb
      · exact h3 i' (by omega) hi2
    · rw [hb] at h
      simp only [Option.some.injEq, Prod.mk.injEq] at h
      obtain ⟨hp, hd⟩ := h
      subst hd
      exact ⟨idx, le_refl _, by omega, fun i' h1 h2 => by omega,
        j, inner, hb, hp.symm⟩

/-- `diskWrite` hits the targeted word. -/
theorem diskWrite_same (disk : Disk) (b i v : Nat) : diskWrite disk b i v b i = v := by
  unfold diskWrite
  rw [Function.update_same, Function.update_same]

/-- `diskWrite` leaves other blocks alone. -/
theorem diskWrite_other_block (disk : Disk) (b i v b' i' : Nat) (h : b' ≠ b) :
    diskWrite disk b i v b' i' = disk b' i' := by
  unfold diskWrite
  rw [Function.update_noteq h]

/-- `diskWrite` leaves other words of the same block alone. -/
theorem diskWrite_other_word (disk : Disk) (b i v i' : Nat) (h : i' ≠ i) :
    diskWrite disk b i v b i' = disk b i' := by
  unfold diskWrite
  rw [Function.update_same, Function.update_noteq h]

/-- `bitSet` with the block size spelled out. -/
theorem bitSet_eq (bm : Bitmap) (disk : Disk) (q : Nat) :
    bitSet bm disk q =
      (disk (q / 4096 + bm.start_block_id) (q % 4096 / 64)).testBit (q % 4096 % 64) := by
  unfold bitSet
  rw [BB_eq]

/-- Claim C6: `Bitmap::alloc` scans blocks in index order, words in order
inside each block, picks the lowest clear bit of the first non-full word
(`trailing_ones`), sets it and returns its global index — which is the least
clear bit of the whole bitmap — or returns `None` when every bit is set;
`Bitmap::dealloc` asserts the bit was set (panicking otherwise) and clears
exactly that bit. -/
theorem c6_bitmap_alloc_dealloc (bm : Bitmap) (disk : Disk)
    (hdisk : ∀ b j, disk b j < 2 ^ 64) :
    (∀ p d', bm.alloc disk = some (p, d') →
      p < bm.blocks * BLOCK_BITS ∧ bitSet bm disk p = false ∧
      (∀ q, q < p → bitSet bm disk q = true) ∧
      bitSet bm d' p = true ∧
      (∀ q, q ≠ p → bitSet bm d' q = bitSet bm disk q)) ∧
    (bm.alloc disk = none → ∀ q, q < bm.blocks * BLOCK_BITS → bitSet bm disk q = true) ∧
    (∀ bit, bitSet bm disk bit = true →
      ∃ d', bm.dealloc disk bit = some d' ∧ bitSet bm d' bit = false ∧
        ∀ q, q ≠ bit → bitSet bm d' q = bitSet bm disk q) ∧
    (∀ bit, bitSet bm disk bit = false → bm.dealloc disk bit = none) := by
  refine ⟨?_, ?_, ?_, ?_⟩
  · intro p d' h
    unfold Bitmap.alloc at h
    obtain ⟨i, -, hin, hprev, j, inner, hblk, hp⟩ :=
      allocLoopAux_some bm.start_block_id disk bm.blocks 0 p d' h
    obtain ⟨hj, hinner, hbit, hbits, hwords, hd'⟩ :=
      allocInBlock_some disk (i + bm.start_block_id) j inner d'
        (fun j' _ => hdisk (i + bm.start_block_id) j') hblk
    rw [BB_eq] at hp
    have hp1 : p / 4096 = i := by omega
    have hp2 : p % 4096 / 64 = j := by omega
    have hp3 : p % 4096 % 64 = inner := by omega
    refine ⟨by rw [BB_eq]; omega, ?_, ?_, ?_, ?_⟩
    · rw [bitSet_eq, hp1, hp2, hp3]
      exact hbit
    · intro q hq
      rw [bitSet_eq]
      have hqi : q % 4096 % 64 < 64 := by omega
      by_cases hqb : q / 4096 < i
      · have hnone := allocInBlock_none disk (q / 4096 + bm.start_block_id)
          (hprev (q / 4096) (by omega) hqb)
        rw [hnone (q % 4096 / 64) (by omega)]
        exact u64max_testBit _ hqi
      · have hqb' : q / 4096 = i := by omega
        rw [hqb']
        by_cases hqw : q % 4096 / 64 < j
        · rw [hwords _ hqw]
          exact u64max_testBit _ hqi
        · have hqw' : q % 4096 / 64 = j := by omega
          rw [hqw']
          refine hbits _ ?_
          omega
    · rw [bitSet_eq, hp1, hp2, hp3, hd', diskWrite_same, Nat.shiftLeft_eq, one_mul,
        Nat.testBit_or, Nat.testBit_two_pow]
      simp
    · intro q hq
      rw [bitSet_eq, bitSet_eq, hd']
      by_cases hqb : q / 4096 = i
      · rw [hqb]
        by_cases hqw : q % 4096 / 64 = j
        · rw [hqw, diskWrite_same]
          have hqi : q % 4096 % 64 ≠ inner := by
            intro hcontra
            exact hq (by omega)
          have hne : ¬ (inner = q % 4096 % 64) := fun hcontra => hqi hcontra.symm
          rw [Nat.shiftLeft_eq, one_mul, Nat.testBit_or, Nat.testBit_two_pow]
          simp [hne]
        · rw [diskWrite_other_word _ _ _ _ _ hqw]
      · rw [diskWrite_other_block _ _ _ _ _ _ (by omega)]
  · intro h q hq
    rw [BB_eq] at hq
    unfold Bitmap.alloc at h
    have hnone := allocLoopAux_none bm.start_block_id disk bm.blocks 0 h
      (q / 4096) (by omega) (by omega)
    have hfull := allocInBlock_none disk (q / 4096 + bm.start_block_id) hnone
    rw [bitSet_eq, hfull (q % 4096 / 64) (by omega)]
    exact u64max_testBit _ (by omega)
  · intro bit hbit
    unfold Bitmap.dealloc decompsition
    rw [bitSet_eq] at hbit
    simp only [BB_eq]
    have hip : bit % 4096 % 64 < 64 := by omega
    have hcond : disk (bit / 4096 + bm.start_block_id) (bit % 4096 / 64) &&&
        (1 <<< (bit % 4096 % 64)) > 0 := by
      rw [Nat.shiftLeft_eq, one_mul, Nat.and_two_pow, hbit]
      simp [Nat.pos_pow_of_pos]
    rw [if_pos hcond]
    refine ⟨_, rfl, ?_, ?_⟩
    · rw [bitSet_eq, diskWrite_same, Nat.testBit_and, Nat.shiftLeft_eq, one_mul,
        Nat.testBit_xor, Nat.testBit_two_pow, u64max_testBit _ hip]
      simp
    · intro q hq
      rw [bitSet_eq, bitSet_eq]
      by_cases hqb : q / 4096 = bit / 4096
      · rw [hqb]
        by_cases hqw : q % 4096 / 64 = bit % 4096 / 64
        · rw [hqw, diskWrite_same]
          have hqi : q % 4096 % 64 ≠ bit % 4096 % 64 := by
            intro hcontra
            exact hq (by omega)
          have hne : ¬ (bit % 4096 % 64 = q % 4096 % 64) := fun hc => hqi hc.symm
          rw [Nat.testBit_and, Nat.shiftLeft_eq, one_mul, Nat.testBit_xor,
            Nat.testBit_two_pow, u64max_testBit _ (by omega)]
          simp [hne]
        · rw [diskWrite_other_word _ _ _ _ _ hqw]
      · rw [diskWrite_other_block _ _ _ _ _ _ (by omega)]
  · intro bit hbit
    unfold Bitmap.dealloc decompsition
    rw [bitSet_eq] at hbit
    simp only [BB_eq]
    have hcond : ¬ (disk (bit / 4096 + bm.start_block_id) (bit % 4096 / 64) &&&
        (1 <<< (bit % 4096 % 64)) > 0) := by
      rw [Nat.shiftLeft_eq, one_mul, Nat.and_two_pow, hbit]
      simp
    rw [if_neg hcond]

/-- Witness for C6: deallocating set bit 5 of a one-block bitmap. -/
theorem c6_bitmap_alloc_dealloc_witness :
    bitSet ⟨2, 1⟩ (diskWrite disk0 2 0 32) 5 = true ∧
    (∃ d', Bitmap.dealloc ⟨2, 1⟩ (diskWrite disk0 2 0 32) 5 = some d' ∧
      bitSet ⟨2, 1⟩ d' 5 = false ∧
      ∀ q, q ≠ 5 → bitSet ⟨2, 1⟩ d' q = bitSet ⟨2, 1⟩ (diskWrite disk0 2 0 32) q) := by
  have hdisk : ∀ b j, diskWrite disk0 2 0 32 b j < 2 ^ 64 := by
    intro b j
    unfold diskWrite disk0
    rcases eq_or_ne b 2 with hb | hb
    · subst hb
      rw [Function.update_same]
      rcases eq_or_ne j 0 with hj | hj
      · subst hj
        rw [Function.update_same]
        norm_num
      · rw [Function.update_noteq hj]
        norm_num
    · rw [Function.update_noteq hb]
      norm_num
  exact ⟨by decide, (c6_bitmap_alloc_dealloc ⟨2, 1⟩ (diskWrite disk0 2 0 32) hdisk).2.2.1 5
    (by decide)⟩

/-! ### Claim C1 (`read_at`) -/

/-- `BLOCK_SZ` as a numeral. -/
theorem BS_eq : BLOCK_SZ = 512 := rfl

/-- The read loop yields exactly the file bytes of `[start, e)`. -/
theorem readAtLoop_eq (getBid : Nat → Nat) (disk : Disk) :
    ∀ (m start e : Nat), e - start = m → start < e →
    readAtLoop getBid disk start e =
      (List.range (e - start)).map fun i => fileByte getBid disk (start + i) := by
  intro m
  induction m using Nat.strong_induction_on with
  | _ m ih =>
    intro start e hm hlt
    have hblk : start < start / BLOCK_SZ * BLOCK_SZ + BLOCK_SZ :=
      Nat.lt_div_mul_add (by norm_num [BLOCK_SZ])
    rw [readAtLoop, dif_pos hlt]
    by_cases hend : min ((start / BLOCK_SZ + 1) * BLOCK_SZ) e = e
    · rw [if_pos hend, hend]
      refine List.map_congr_left ?_
      intro i hi
      rw [List.mem_range] at hi
      unfold fileByte
      have h1 : (start + i) / BLOCK_SZ = start / BLOCK_SZ := by
        simp only [BS_eq] at *
        omega
      have h2 : (start + i) % BLOCK_SZ = start % BLOCK_SZ + i := by
        simp only [BS_eq] at *
        omega
      rw [h1, h2]
    · rw [if_neg hend]
      have hgt : start < min ((start / BLOCK_SZ + 1) * BLOCK_SZ) e := by
        simp only [BS_eq] at *
        omega
      have hlt2 : min ((start / BLOCK_SZ + 1) * BLOCK_SZ) e < e := by
        simp only [BS_eq] at *
        omega
      rw [ih (e - min ((start / BLOCK_SZ + 1) * BLOCK_SZ) e) (by omega)
        (min ((start / BLOCK_SZ + 1) * BLOCK_SZ) e) e rfl hlt2]
      have hsplit : e - start =
          (min ((start / BLOCK_SZ + 1) * BLOCK_SZ) e - start) +
          (e - min ((start / BLOCK_SZ + 1) * BLOCK_SZ) e) := by
        omega
      rw [hsplit, List.range_add, List.map_append, List.map_map]
      refine congrArg₂ _ ?_ ?_
      · refine List.map_congr_left ?_
        intro i hi
        rw [List.mem_range] at hi
        unfold fileByte
        have h1 : (start + i) / BLOCK_SZ = start / BLOCK_SZ := by
          simp only [BS_eq] at *
          omega
        have h2 : (start + i) % BLOCK_SZ = start % BLOCK_SZ + i := by
          simp only [BS_eq] at *
          omega
        rw [h1, h2]
      · refine List.map_congr_left ?_
        intro i hi
        rw [List.mem_range] at hi
        have harg : start + (min ((start / BLOCK_SZ + 1) * BLOCK_SZ) e - start + i) =
            min ((start / BLOCK_SZ + 1) * BLOCK_SZ) e + i := by
          omega
        simp only [Function.comp]
        rw [harg]

/-- `DiskInode::read_at` on an in-bounds offset returns exactly the bytes
`file[offset .. min(offset+bufLen, size))` and their count. -/
theorem read_at_spec (size : Nat) (getBid : Nat → Nat) (disk : Disk) (offset bufLen : Nat)
    (hos : offset < size) :
    DiskInode.read_at size getBid disk offset bufLen =
      (min (offset + bufLen) size - offset,
        (List.range (min (offset + bufLen) size - offset)).map
          fun i => fileByte getBid disk (offset + i)) := by
  unfold DiskInode.read_at
  by_cases hge : offset ≥ min (offset + bufLen) size
  · rw [if_pos hge]
    have h0 : min (offset + bufLen) size - offset = 0 := by omega
    rw [h0]
    simp
  · rw [if_neg hge]
    rw [readAtLoop_eq getBid disk (min (offset + bufLen) size - offset) offset
      (min (offset + bufLen) size) rfl (by omega)]
    simp

/-- A write starting at position 0 that stays inside the first block runs a
single loop iteration: it overlays `buf[0..e)` onto block `getBid 0`. -/
theorem writeAtLoop_single (getBid : Nat → Nat) (disk : Disk) (e : Nat) (buf : List Nat)
    (h0 : 0 < e) (h1 : e ≤ BLOCK_SZ) :
    writeAtLoop getBid disk 0 e buf 0 =
      fun b i => if b = getBid 0 ∧ i < e then buf.getD i 0 else disk b i := by
  have hmin : min ((0 / BLOCK_SZ + 1) * BLOCK_SZ) e = e := by
    simp only [BS_eq] at *
    omega
  rw [writeAtLoop, dif_pos h0, if_pos hmin]
  funext b i
  show (if b = getBid (0 / BLOCK_SZ) ∧ 0 % BLOCK_SZ ≤ i ∧
      i < 0 % BLOCK_SZ + (min ((0 / BLOCK_SZ + 1) * BLOCK_SZ) e - 0) then
    buf.getD (0 + (i - 0 % BLOCK_SZ)) 0 else disk b i) =
    (if b = getBid 0 ∧ i < e then buf.getD i 0 else disk b i)
  rw [hmin]
  simp only [Nat.zero_div, Nat.zero_mod, Nat.zero_add, Nat.sub_zero, Nat.zero_le, true_and]

set_option maxHeartbeats 1000000 in
/-- Claim C1: for every inode of size `s`, `DiskInode::read_at(offset, buf)`
copies `file[offset .. min(offset+bufLen, s))` into the buffer and returns
`min(offset+bufLen, s) - offset` when `offset < s`, and returns 0 (copying
nothing) when `offset ≥ s`; and in the end-to-end scenario, after writing the
13 bytes `"Hello, world!"` at offset 0 of a freshly created file, a read of
233 bytes at offset 0 returns length 13 and exactly the written bytes. -/
theorem c1_read_at_correct (size : Nat) (getBid : Nat → Nat) (disk : Disk)
    (offset bufLen : Nat) :
    (offset < size →
      DiskInode.read_at size getBid disk offset bufLen =
        (min (offset + bufLen) size - offset,
          (List.range (min (offset + bufLen) size - offset)).map
            fun i => fileByte getBid disk (offset + i))) ∧
    (size ≤ offset → DiskInode.read_at size getBid disk offset bufLen = (0, [])) ∧
    c1Scenario = some (13, 13, helloBytes) := by
  refine ⟨fun hos => read_at_spec size getBid disk offset bufLen hos, ?_, ?_⟩
  · intro hso
    unfold DiskInode.read_at
    rw [if_pos (by omega)]
  · have hwrite : Inode.write_at fileaFresh fsA disk0 0 helloBytes =
        some (13, inoA, writeAtLoop (get_block_id inoA (diskWrite disk0 2 0 1))
          (diskWrite disk0 2 0 1) 0 13 helloBytes 0) := rfl
    have hd2 : writeAtLoop (get_block_id inoA (diskWrite disk0 2 0 1))
        (diskWrite disk0 2 0 1) 0 13 helloBytes 0 = ovlA := by
      rw [writeAtLoop_single (get_block_id inoA (diskWrite disk0 2 0 1))
        (diskWrite disk0 2 0 1) 13 helloBytes (by decide) (by decide)]
      rfl
    have hread : Inode.read_at inoA ovlA 0 233 = (13, helloBytes) := by
      have h := read_at_spec 13 (get_block_id inoA ovlA) ovlA 0 233 (by decide)
      unfold Inode.read_at
      show DiskInode.read_at 13 (get_block_id inoA ovlA) ovlA 0 233 = (13, helloBytes)
      rw [h]
      decide
    unfold c1Scenario
    rw [hwrite, hd2, Option.map_some']
    show some (13, (Inode.read_at inoA ovlA 0 233).1, (Inode.read_at inoA ovlA 0 233).2) =
      some (13, 13, helloBytes)
    rw [hread]

/-- Witness for C1 at concrete inputs: reading 100 bytes at offset 5 of a
13-byte file returns the 8 remaining bytes. -/
theorem c1_read_at_correct_witness :
    (5 : Nat) < 13 ∧
      DiskInode.read_at 13 (fun _ => 3) disk0 5 100 =
        (min (5 + 100) 13 - 5,
          (List.range (min (5 + 100) 13 - 5)).map fun i => fileByte (fun _ => 3) disk0 (5 + i)) :=
  ⟨by decide, (c1_read_at_correct 13 (fun _ => 3) disk0 5 100).1 (by decide)⟩
